import Mathlib

/-
Verification of the binarydict schema-driven binary codec (src/binary_dict.py).

The embedding models:
  * Python values flowing through the codec (ints, bools, bytes, str,
    None, lists, dicts) as the inductive type `Val`;
  * the predefined field descriptors (BasicType constants with the
    fixed-width integer / bool / char formats, BYTES, STRING, SPARE,
    ARRAY, BinaryStructure) as the inductive type `Desc`
    (floating point formats are outside the embedding);
  * the `struct` module collaborator for the generated format strings
    (native byte order and native alignment on a little-endian LP64
    platform) at the byte level: `packToks` / `readToks` /
    `structUnpackFrom`;
  * Python `str.encode()` / `bytes.decode()` with the default UTF-8
    codec as `utf8Encode` / `utf8Decode`;
  * the codec engine itself: `create_packlist`, `parse_unpacked`,
    `pack`, `unpack`, faithful to the source, with fallible Python
    operations (IndexError, AttributeError, struct.error,
    UnicodeDecodeError, ...) returning `Option`.
-/

namespace BinaryDict

/-- A Python value as it flows through the codec. -/
inductive Val where
  | vint (i : Int)
  | vbool (b : Bool)
  | vbytes (bs : List Nat)
  | vstr (s : List Nat)
  | vnone
  | vlist (l : List Val)
  | vdict (l : List (String × Val))
  deriving Repr

/-- Python truthiness, used by struct's bool format. -/
def pyTruthy : Val → Bool
  | .vint i => i != 0
  | .vbool b => b
  | .vbytes bs => !bs.isEmpty
  | .vstr s => !s.isEmpty
  | .vnone => false
  | .vlist l => !l.isEmpty
  | .vdict l => !l.isEmpty

/-- Python dict.get(k): the value under k, or None when the key is missing. -/
def pyGet : List (String × Val) → String → Val
  | [], _ => .vnone
  | (k', v) :: rest, k => if k' = k then v else pyGet rest k

/-- Python sequence indexing value[i] for a list; out of range raises. -/
def pyIndex : List Val → Nat → Option Val
  | [], _ => none
  | x :: _, 0 => some x
  | _ :: xs, n + 1 => pyIndex xs n

/-- Python slicing l[i:] with a possibly negative int index. -/
def pySliceFrom (l : List α) (i : Int) : List α :=
  if 0 ≤ i then l.drop i.toNat else l.drop (l.length - (-i).toNat)

/-- Python slicing l[:i] with a possibly negative int index. -/
def pyTakeTo (l : List α) (i : Int) : List α :=
  if 0 ≤ i then l.take i.toNat else l.take (l.length - (-i).toNat)

/-- Helper for str.find: index of the first occurrence from position i. -/
def pyFindAux (c : Nat) : List Nat → Nat → Int
  | [], _ => -1
  | x :: xs, i => if x = c then (i : Int) else pyFindAux c xs (i + 1)

/-- Python str.find for a single character: first index, or -1 when absent. -/
def pyFind (c : Nat) (s : List Nat) : Int := pyFindAux c s 0

/-- UTF-8 encoding of one code point; fails on surrogates (Python strict codec). -/
def utf8EncodeChar (c : Nat) : Option (List Nat) :=
  if c < 0x80 then some [c]
  else if c < 0x800 then some [0xC0 + c / 0x40, 0x80 + c % 0x40]
  else if 0xD800 ≤ c ∧ c < 0xE000 then none
  else if c < 0x10000 then
    some [0xE0 + c / 0x1000, 0x80 + c / 0x40 % 0x40, 0x80 + c % 0x40]
  else if c < 0x110000 then
    some [0xF0 + c / 0x40000, 0x80 + c / 0x1000 % 0x40, 0x80 + c / 0x40 % 0x40,
      0x80 + c % 0x40]
  else none

/-- Python str.encode() with the default UTF-8 codec. -/
def utf8Encode : List Nat → Option (List Nat)
  | [] => some []
  | c :: rest => do pure ((← utf8EncodeChar c) ++ (← utf8Encode rest))

/-- Scalar value of a 3-byte UTF-8 sequence. -/
def dec3val (b0 b1 b2 : Nat) : Nat :=
  (b0 - 0xE0) * 0x1000 + (b1 - 0x80) * 0x40 + (b2 - 0x80)

/-- Scalar value of a 4-byte UTF-8 sequence. -/
def dec4val (b0 b1 b2 b3 : Nat) : Nat :=
  (b0 - 0xF0) * 0x40000 + (b1 - 0x80) * 0x1000 + (b2 - 0x80) * 0x40 + (b3 - 0x80)

mutual

/-- Python bytes.decode() with the default strict UTF-8 codec:
rejects truncated sequences, stray continuation bytes, overlong forms,
surrogates, and code points above 0x10FFFF. -/
def utf8Decode : List Nat → Option (List Nat)
  | [] => some []
  | b0 :: rest =>
    if b0 < 0x80 then (utf8Decode rest).map (b0 :: ·)
    else if b0 < 0xC2 then none
    else if b0 < 0xE0 then utf8Dec2 b0 rest
    else if b0 < 0xF0 then utf8Dec3 b0 rest
    else if b0 < 0xF5 then utf8Dec4 b0 rest
    else none

/-- Continuation of a 2-byte UTF-8 sequence. -/
def utf8Dec2 (b0 : Nat) : List Nat → Option (List Nat)
  | b1 :: rest2 =>
    if 0x80 ≤ b1 ∧ b1 < 0xC0 then
      (utf8Decode rest2).map (((b0 - 0xC0) * 0x40 + (b1 - 0x80)) :: ·)
    else none
  | [] => none

/-- Continuation of a 3-byte UTF-8 sequence. -/
def utf8Dec3 (b0 : Nat) : List Nat → Option (List Nat)
  | b1 :: b2 :: rest3 =>
    if (0x80 ≤ b1 ∧ b1 < 0xC0) ∧ (0x80 ≤ b2 ∧ b2 < 0xC0) then
      if 0x800 ≤ dec3val b0 b1 b2 ∧
          ¬(0xD800 ≤ dec3val b0 b1 b2 ∧ dec3val b0 b1 b2 < 0xE000) then
        (utf8Decode rest3).map (dec3val b0 b1 b2 :: ·)
      else none
    else none
  | _ => none

/-- Continuation of a 4-byte UTF-8 sequence. -/
def utf8Dec4 (b0 : Nat) : List Nat → Option (List Nat)
  | b1 :: b2 :: b3 :: rest4 =>
    if (0x80 ≤ b1 ∧ b1 < 0xC0) ∧ (0x80 ≤ b2 ∧ b2 < 0xC0) ∧
        (0x80 ≤ b3 ∧ b3 < 0xC0) then
      if 0x10000 ≤ dec4val b0 b1 b2 b3 ∧ dec4val b0 b1 b2 b3 < 0x110000 then
        (utf8Decode rest4).map (dec4val b0 b1 b2 b3 :: ·)
      else none
    else none
  | _ => none

end

/-- One token of a struct format string: a fixed-width integer format
(b, B, h, H, l, L, q, Q, n, N), the bool format, the single-char format,
a counted byte-block format (count)s, or a counted padding format (count)x. -/
inductive Tok where
  | tint (w : Nat) (sgn : Bool)
  | tbool
  | tchar
  | tstr (n : Nat)
  | tpad (n : Nat)
  deriving Repr, DecidableEq

/-- Native-mode alignment of a token (the C type's alignment; byte blocks
and padding are unaligned). -/
def tokAlign : Tok → Nat
  | .tint w _ => w
  | .tbool => 1
  | .tchar => 1
  | .tstr _ => 1
  | .tpad _ => 1

/-- Byte width of a token. -/
def tokWidth : Tok → Nat
  | .tint w _ => w
  | .tbool => 1
  | .tchar => 1
  | .tstr n => n
  | .tpad n => n

/-- How many packed/unpacked values a token carries (padding carries none). -/
def tokSlots : Tok → Nat
  | .tint _ _ => 1
  | .tbool => 1
  | .tchar => 1
  | .tstr _ => 1
  | .tpad _ => 0

/-- Number of values a whole format carries. -/
def countSlots (ts : List Tok) : Nat := (ts.map tokSlots).sum

/-- Round pos up to the next multiple of a. -/
def alignUp (pos a : Nat) : Nat :=
  if a = 0 then pos else pos + (a - pos % a) % a

/-- The byte offset just past the last token, starting from pos
(struct's size computation, native alignment, no trailing padding). -/
def endPos : List Tok → Nat → Nat
  | [], pos => pos
  | t :: ts, pos => endPos ts (alignUp pos (tokAlign t) + tokWidth t)

/-- struct.Struct(format).size for a native-mode format. -/
def sizeToks (ts : List Tok) : Nat := endPos ts 0

/-- Little-endian bytes of a natural number, w bytes. -/
def leBytes : Nat → Nat → List Nat
  | 0, _ => []
  | w + 1, x => x % 256 :: leBytes w (x / 256)

/-- The natural number encoded by little-endian bytes. -/
def leVal : List Nat → Nat
  | [] => 0
  | b :: bs => b + 256 * leVal bs

/-- struct's conversion of an int under an integer format: range-checked,
then encoded as w little-endian two's-complement bytes. -/
def packIntCore (w : Nat) (sgn : Bool) (i : Int) : Option (List Nat) :=
  if sgn then
    if -(2 ^ (8 * w - 1) : Int) ≤ i ∧ i < 2 ^ (8 * w - 1) then
      some (leBytes w (i % (2 ^ (8 * w) : Int)).toNat)
    else none
  else
    if 0 ≤ i ∧ i < (2 ^ (8 * w) : Int) then some (leBytes w i.toNat) else none

/-- struct's conversion of one Python value under an integer format:
requires an int (or a bool, ints' subclass) in the format's range. -/
def packIntVal (w : Nat) (sgn : Bool) (v : Val) : Option (List Nat) :=
  match v with
  | .vint i => packIntCore w sgn i
  | .vbool b => packIntCore w sgn (if b then 1 else 0)
  | _ => none

/-- struct's decoding of one integer value from its little-endian bytes
(two's complement when signed). -/
def decIntVal (w : Nat) (sgn : Bool) (bs : List Nat) : Val :=
  if sgn ∧ 2 ^ (8 * w - 1) ≤ leVal bs then
    .vint ((leVal bs : Int) - 2 ^ (8 * w))
  else .vint (leVal bs)

/-- struct.pack for a native-mode format: walks the tokens, inserting
alignment NUL bytes, converting one value per value-bearing token, and
failing on wrong argument count or inconvertible values.  The string
format zero-pads or truncates the byte block to the declared count. -/
def packToks : List Tok → List Val → Nat → Option (List Nat)
  | [], [], _ => some []
  | [], _ :: _, _ => none
  | .tpad n :: ts, slots, pos =>
    (packToks ts slots (pos + n)).map (List.replicate n 0 ++ ·)
  | _ :: _, [], _ => none
  | .tint w sgn :: ts, s :: slots, pos => do
    let gap := alignUp pos w - pos
    pure (List.replicate gap 0 ++ (← packIntVal w sgn s) ++
      (← packToks ts slots (alignUp pos w + w)))
  | .tbool :: ts, s :: slots, pos =>
    (packToks ts slots (pos + 1)).map ((if pyTruthy s then 1 else 0) :: ·)
  | .tchar :: ts, s :: slots, pos =>
    match s with
    | .vbytes [b] => (packToks ts slots (pos + 1)).map (b :: ·)
    | _ => none
  | .tstr n :: ts, s :: slots, pos =>
    match s with
    | .vbytes bs =>
      (packToks ts slots (pos + n)).map
        ((bs.take n ++ List.replicate (n - bs.length) 0) ++ ·)
    | _ => none

/-- The byte at an offset of a buffer (only used in bounds-checked reads). -/
def byteAt (b : List Nat) (pos : Nat) : Nat := (b.drop pos).headD 0

/-- struct's value extraction for a native-mode format, positions relative
to the format start (callers bounds-check first). -/
def readToks : List Tok → List Nat → Nat → List Val
  | [], _, _ => []
  | .tpad n :: ts, b, pos => readToks ts b (pos + n)
  | .tint w sgn :: ts, b, pos =>
    let p := alignUp pos w
    decIntVal w sgn ((b.drop p).take w) :: readToks ts b (p + w)
  | .tbool :: ts, b, pos => .vbool (byteAt b pos != 0) :: readToks ts b (pos + 1)
  | .tchar :: ts, b, pos => .vbytes [byteAt b pos] :: readToks ts b (pos + 1)
  | .tstr n :: ts, b, pos => .vbytes ((b.drop pos).take n) :: readToks ts b (pos + n)

/-- struct.unpack_from(buffer, offset): fails with struct.error unless
buffer.length - offset is at least the format's size, then extracts the
values. -/
def structUnpackFrom (ts : List Tok) (buf : List Nat) (off : Nat) :
    Option (List Val) :=
  if off + sizeToks ts ≤ buf.length then some (readToks ts (buf.drop off) 0)
  else none

/-- A field descriptor: the predefined BasicType constants with integer
formats (dint with width 1, 2, 4 or 8 and signedness), BOOL, CHAR, a BYTES
block, a STRING (length, null_term flag, default UTF-8 codec), SPARE
padding, an ARRAY of a child descriptor, and a BinaryStructure record with
its ordered field dictionary. -/
inductive Desc where
  | dint (w : Nat) (sgn : Bool)
  | dbool
  | dchar
  | dbytes (n : Nat)
  | dstr (n : Nat) (nullTerm : Bool)
  | dspare (n : Nat)
  | darray (child : Desc) (len : Nat)
  | dstruct (fields : List (String × Desc))
  deriving Repr

/-- Format-string repetition: fmt * n (ARRAY builds its format this way). -/
def fmtRep : Nat → List Tok → List Tok
  | 0, _ => []
  | n + 1, f => f ++ fmtRep n f

mutual

/-- The struct format string a descriptor contributes (`self.format`). -/
def format : Desc → List Tok
  | .dint w sgn => [.tint w sgn]
  | .dbool => [.tbool]
  | .dchar => [.tchar]
  | .dbytes n => [.tstr n]
  | .dstr n _ => [.tstr n]
  | .dspare n => [.tpad n]
  | .darray d n => fmtRep n (format d)
  | .dstruct fs => formatFields fs

/-- The concatenated formats of a record's fields, in declared order. -/
def formatFields : List (String × Desc) → List Tok
  | [] => []
  | (_, d) :: rest => format d ++ formatFields rest

end

mutual

/-- slot_width: how many flat primitive slots a descriptor consumes
(1 for scalars, byte and text fields, 0 for padding, length times the
child's width for arrays, the sum over fields for records). -/
def slotW : Desc → Nat
  | .dint _ _ => 1
  | .dbool => 1
  | .dchar => 1
  | .dbytes _ => 1
  | .dstr _ _ => 1
  | .dspare _ => 0
  | .darray d n => n * slotW d
  | .dstruct fs => slotWFields fs

/-- Sum of the fields' slot widths. -/
def slotWFields : List (String × Desc) → Nat
  | [] => 0
  | (_, d) :: rest => slotW d + slotWFields rest

end

/-- ARRAY.create_packlist's loop: for i in range(length), index the input
sequence and append the child's packlist. -/
def arrGo (f : Val → Option (List Val)) (l : List Val) :
    Nat → Nat → Option (List Val)
  | 0, _ => some []
  | rem + 1, i => do
    let x ← pyIndex l i
    let s ← f x
    let r ← arrGo f l rem (i + 1)
    pure (s ++ r)

mutual

/-- create_packlist: the flat list of primitive values a descriptor
contributes for an input value.  BasicType and BYTES wrap the value
unexamined; STRING encodes (only a str has .encode); SPARE contributes
nothing; ARRAY indexes a sequence; BinaryStructure looks every field up
with .get (None when missing) and concatenates. -/
def create_packlist : Desc → Val → Option (List Val)
  | .dint _ _, v => some [v]
  | .dbool, v => some [v]
  | .dchar, v => some [v]
  | .dbytes _, v => some [v]
  | .dstr _ _, v =>
    match v with
    | .vstr s => (utf8Encode s).map (fun bs => [.vbytes bs])
    | _ => none
  | .dspare _, _ => some []
  | .darray d n, v =>
    match v with
    | .vlist l => arrGo (create_packlist d) l n 0
    | _ => none
  | .dstruct fs, v =>
    match v with
    | .vdict a => cplFields fs a
    | _ => none

/-- BinaryStructure.create_packlist's loop over the field dictionary. -/
def cplFields : List (String × Desc) → List (String × Val) → Option (List Val)
  | [], _ => some []
  | (k, d) :: rest, a => do
    pure ((← create_packlist d (pyGet a k)) ++ (← cplFields rest a))

end

/-- ARRAY.parse_unpacked's loop: slice the unpacked list at the running
item_count, parse one element, advance by the element's consumed count. -/
def arrPGo (p : List Val → Option (Val × Int)) (data : List Val) :
    Nat → Int → Option (List Val × Int)
  | 0, ic => some ([], ic)
  | rem + 1, ic => do
    let (v, c) ← p (pySliceFrom data ic)
    let (vs, ic') ← arrPGo p data rem (ic + c)
    pure (v :: vs, ic')

mutual

/-- parse_unpacked: value and consumed-slot count from a list of unpacked
primitives.  BasicType and BYTES take the head (IndexError on an empty
list); STRING decodes the byte block and, when null_term is set, slices
the result at str.find of the null character (-1 when absent); SPARE
returns None consuming 0; ARRAY loops with an item_count cursor;
BinaryStructure slices the original list at x + unpack_offset for the
x-th field and accumulates unpack_offset += consumed - 1, returning
len(keys) + unpack_offset as its own consumed count. -/
def parse_unpacked : Desc → List Val → Option (Val × Int)
  | .dint _ _, data =>
    match data with
    | [] => none
    | s :: _ => some (s, 1)
  | .dbool, data =>
    match data with
    | [] => none
    | s :: _ => some (s, 1)
  | .dchar, data =>
    match data with
    | [] => none
    | s :: _ => some (s, 1)
  | .dbytes _, data =>
    match data with
    | [] => none
    | s :: _ => some (s, 1)
  | .dstr _ nt, data =>
    match data with
    | [] => none
    | s :: _ =>
      match s with
      | .vbytes bs =>
        (utf8Decode bs).map (fun cs =>
          (.vstr (if nt then pyTakeTo cs (pyFind 0 cs) else cs), 1))
      | _ => none
  | .dspare _, _ => some (.vnone, 0)
  | .darray d n, data =>
    (arrPGo (parse_unpacked d) data n 0).map (fun p => (.vlist p.1, p.2))
  | .dstruct fs, data =>
    (pufFields fs data 0 0).map (fun p => (.vdict p.1, (fs.length : Int) + p.2))

/-- BinaryStructure.parse_unpacked's loop: x is the field index,
off the running unpack_offset; each field parses the original list
sliced at x + off; afterwards off increases by consumed - 1. -/
def pufFields : List (String × Desc) → List Val → Nat → Int →
    Option (List (String × Val) × Int)
  | [], _, _, off => some ([], off)
  | (k, d) :: rest, data, x, off => do
    let (v, c) ← parse_unpacked d (pySliceFrom data ((x : Int) + off))
    let (ps, off') ← pufFields rest data (x + 1) (off + c - 1)
    pure ((k, v) :: ps, off')

end

/-- StructObject.pack: build the packlist and pack it against the format. -/
def pack (d : Desc) (v : Val) : Option (List Nat) := do
  packToks (format d) (← create_packlist d v) 0

/-- StructObject.unpack: struct.unpack_from at the offset, then
parse_unpacked, keeping the value and dropping the consumed count. -/
def unpack (d : Desc) (buf : List Nat) (off : Nat := 0) : Option Val := do
  let slots ← structUnpackFrom (format d) buf off
  let (v, _) ← parse_unpacked d slots
  pure v

/-- len(descriptor): the byte width struct computes for its format. -/
def byte_width (d : Desc) : Nat := sizeToks (format d)

/-- A cursor-explicit reference decoder: each element or field is decoded
at the data dropped by the total consumed count of everything before it,
and consumed counts are naturals summed directly.  parse_unpacked is
proved equal to this. -/
def aSpec (p : List Val → Option (Val × Nat)) :
    Nat → List Val → Option (List Val × Nat)
  | 0, _ => some ([], 0)
  | rem + 1, data => do
    let (v, c) ← p data
    let (vs, m) ← aSpec p rem (data.drop c)
    pure (v :: vs, c + m)

mutual

/-- Reference decoder, cursor style (see aSpec). -/
def pspec : Desc → List Val → Option (Val × Nat)
  | .dint _ _, data =>
    match data with
    | [] => none
    | s :: _ => some (s, 1)
  | .dbool, data =>
    match data with
    | [] => none
    | s :: _ => some (s, 1)
  | .dchar, data =>
    match data with
    | [] => none
    | s :: _ => some (s, 1)
  | .dbytes _, data =>
    match data with
    | [] => none
    | s :: _ => some (s, 1)
  | .dstr _ nt, data =>
    match data with
    | [] => none
    | s :: _ =>
      match s with
      | .vbytes bs =>
        (utf8Decode bs).map (fun cs =>
          (.vstr (if nt then pyTakeTo cs (pyFind 0 cs) else cs), 1))
      | _ => none
  | .dspare _, _ => some (.vnone, 0)
  | .darray d n, data =>
    (aSpec (pspec d) n data).map (fun p => (.vlist p.1, p.2))
  | .dstruct fs, data =>
    (pspecFields fs data).map (fun p => (.vdict p.1, p.2))

/-- Reference decoder for a record's fields: field i sees the data dropped
by the sum of the consumed counts of fields 0..i-1. -/
def pspecFields : List (String × Desc) → List Val →
    Option (List (String × Val) × Nat)
  | [], _ => some ([], 0)
  | (k, d) :: rest, data => do
    let (v, c) ← pspec d data
    let (ps, m) ← pspecFields rest (data.drop c)
    pure ((k, v) :: ps, c + m)

end

mutual

/-- Well-formed schema: integer widths positive, record keys unique. -/
def wfD : Desc → Bool
  | .dint w _ => decide (0 < w)
  | .dbool => true
  | .dchar => true
  | .dbytes _ => true
  | .dstr _ _ => true
  | .dspare _ => true
  | .darray d _ => wfD d
  | .dstruct fs => decide (fs.map Prod.fst).Nodup && wfFields fs

/-- Well-formedness of every field descriptor. -/
def wfFields : List (String × Desc) → Bool
  | [] => true
  | (_, d) :: rest => wfD d && wfFields rest

end

mutual

/-- A valid decoded value for a descriptor: scalars in the format's range,
byte blocks of exactly the declared length, text whose UTF-8 encoding is
null-free and strictly shorter than the field when null-terminated (and
exactly the field width otherwise), None for padding, arrays of the
declared length with valid elements, and records listing exactly the
schema's keys in declared order with valid field values. -/
def validV : Desc → Val → Bool
  | .dint w sgn, .vint i =>
    if sgn then
      decide (-(2 ^ (8 * w - 1) : Int) ≤ i ∧ i < 2 ^ (8 * w - 1))
    else decide (0 ≤ i ∧ i < (2 ^ (8 * w) : Int))
  | .dint _ _, _ => false
  | .dbool, .vbool _ => true
  | .dbool, _ => false
  | .dchar, .vbytes [b] => decide (b < 256)
  | .dchar, _ => false
  | .dbytes n, .vbytes bs => decide (bs.length = n) && bs.all (· < 256)
  | .dbytes _, _ => false
  | .dstr n nt, .vstr s =>
    match utf8Encode s with
    | some enc =>
      if nt then decide (enc.length < n) && s.all (· ≠ 0)
      else decide (enc.length = n)
    | none => false
  | .dstr _ _, _ => false
  | .dspare _, .vnone => true
  | .dspare _, _ => false
  | .darray d n, .vlist l => decide (l.length = n) && validList d l
  | .darray _ _, _ => false
  | .dstruct fs, .vdict a => validFields fs a
  | .dstruct _, _ => false

/-- Every element valid for the array's child descriptor. -/
def validList : Desc → List Val → Bool
  | _, [] => true
  | d, v :: rest => validV d v && validList d rest

/-- The input dict lists exactly the schema's keys in declared order,
each value valid for its field. -/
def validFields : List (String × Desc) → List (String × Val) → Bool
  | [], [] => true
  | (k, d) :: fr, (k', v) :: ar => decide (k' = k) && validV d v && validFields fr ar
  | _, _ => false

end

mutual

/-- Whether a descriptor contains a text (STRING) field anywhere. -/
def hasText : Desc → Bool
  | .dstr _ _ => true
  | .darray d _ => hasText d
  | .dstruct fs => hasTextFields fs
  | _ => false

/-- Whether any field contains a text field. -/
def hasTextFields : List (String × Desc) → Bool
  | [] => false
  | (_, d) :: rest => hasText d || hasTextFields rest

end

section

variable {P : Desc → Prop} {Q : List (String × Desc) → Prop}
variable (hint : ∀ w s, P (.dint w s)) (hbool : P .dbool) (hchar : P .dchar)
  (hbytes : ∀ n, P (.dbytes n)) (hstr : ∀ n t, P (.dstr n t))
  (hspare : ∀ n, P (.dspare n))
  (harr : ∀ d n, P d → P (.darray d n))
  (hstruct : ∀ fs, Q fs → P (.dstruct fs))
  (hnil : Q []) (hcons : ∀ k d r, P d → Q r → Q ((k, d) :: r))

mutual

/-- Simultaneous induction over a descriptor and its field lists. -/
def descInd : ∀ d, P d
  | .dint w s => hint w s
  | .dbool => hbool
  | .dchar => hchar
  | .dbytes n => hbytes n
  | .dstr n t => hstr n t
  | .dspare n => hspare n
  | .darray d n =>
    harr d n (descInd d)
  | .dstruct fs =>
    hstruct fs (fieldsInd fs)

/-- Simultaneous induction over field lists. -/
def fieldsInd : ∀ fs, Q fs
  | [] => hnil
  | (k, d) :: r => hcons k d r (descInd d) (fieldsInd r)

end

end

theorem countSlots_nil : countSlots [] = 0 := rfl

theorem countSlots_append (a b : List Tok) :
    countSlots (a ++ b) = countSlots a + countSlots b := by
  simp [countSlots]

theorem countSlots_fmtRep (n : Nat) (f : List Tok) :
    countSlots (fmtRep n f) = n * countSlots f := by
  induction n with
  | zero => simp [fmtRep, countSlots]
  | succ m ih => simp [fmtRep, countSlots_append, ih, Nat.succ_mul]; omega

theorem countSlots_format : ∀ d, countSlots (format d) = slotW d :=
  descInd (Q := fun fs => countSlots (formatFields fs) = slotWFields fs)
    (fun _ _ => by simp [format, slotW, countSlots, tokSlots])
    (by simp [format, slotW, countSlots, tokSlots])
    (by simp [format, slotW, countSlots, tokSlots])
    (fun _ => by simp [format, slotW, countSlots, tokSlots])
    (fun _ _ => by simp [format, slotW, countSlots, tokSlots])
    (fun _ => by simp [format, slotW, countSlots, tokSlots])
    (fun d n ih => by simp [format, slotW, countSlots_fmtRep, ih])
    (fun fs ih => by simpa [format, slotW] using ih)
    (by simp [formatFields, slotWFields, countSlots])
    (fun k d r ihd ihr => by
      simp [formatFields, slotWFields, countSlots_append, ihd, ihr])

theorem pySliceFrom_nonneg (l : List α) (i : Int) (h : 0 ≤ i) :
    pySliceFrom l i = l.drop i.toNat := by
  simp [pySliceFrom, h]

theorem optBind_some (a : α) (f : α → Option β) :
    (do let x ← some a; f x) = f a := rfl

theorem optBind_none (f : α → Option β) :
    (do let x ← (none : Option α); f x) = none := rfl

/-- The mapping from the reference consumed count to the code's Int count. -/
def intCount (p : Val × Nat) : Val × Int := (p.1, (p.2 : Int))

theorem arrPGo_eq_aSpec (d : Desc)
    (ih : ∀ data, parse_unpacked d data = (pspec d data).map intCount) :
    ∀ (rem : Nat) (data : List Val) (ic : Int), 0 ≤ ic →
      arrPGo (parse_unpacked d) data rem ic =
        (aSpec (pspec d) rem (data.drop ic.toNat)).map
          (fun p => (p.1, ic + (p.2 : Int))) := by
  intro rem
  induction rem with
  | zero => intro data ic h; simp [arrPGo, aSpec]
  | succ m ihm =>
    intro data ic h
    simp only [arrPGo, aSpec, pySliceFrom_nonneg data ic h, ih]
    cases hp : pspec d (data.drop ic.toNat) with
    | none => simp [hp, intCount]
    | some p =>
      obtain ⟨v, c⟩ := p
      have h2 : (0 : Int) ≤ ic + c := by omega
      have h3 : (ic + (c : Int)).toNat = ic.toNat + c := by omega
      simp only [hp, intCount, Option.map_some', optBind_some]
      rw [ihm data (ic + c) h2, h3]
      have h4 : ∀ l : List Val, l.drop (ic.toNat + c) = (l.drop ic.toNat).drop c := by
        intro l; rw [List.drop_drop, Nat.add_comm]
      rw [h4]
      cases hq : aSpec (pspec d) m ((data.drop ic.toNat).drop c) with
      | none => simp [hq]
      | some q => simp [hq]; omega

theorem parse_unpacked_eq_pspec :
    ∀ d data, parse_unpacked d data = (pspec d data).map intCount := by
  have main : ∀ d, ∀ data, parse_unpacked d data = (pspec d data).map intCount := by
    refine descInd (Q := fun fs => ∀ (data : List Val) (x : Nat) (off : Int),
        0 ≤ (x : Int) + off →
        pufFields fs data x off =
          (pspecFields fs (data.drop ((x : Int) + off).toNat)).map
            (fun p => (p.1, off + (p.2 : Int) - fs.length)))
      ?_ ?_ ?_ ?_ ?_ ?_ ?_ ?_ ?_ ?_
    · intro w s data
      cases data <;> simp [parse_unpacked, pspec, intCount]
    · intro data
      cases data <;> simp [parse_unpacked, pspec, intCount]
    · intro data
      cases data <;> simp [parse_unpacked, pspec, intCount]
    · intro n data
      cases data <;> simp [parse_unpacked, pspec, intCount]
    · intro n t data
      cases data with
      | nil => simp [parse_unpacked, pspec, intCount]
      | cons s rest =>
        cases s <;> simp [parse_unpacked, pspec, intCount]
        cases utf8Decode _ <;> simp [intCount]
    · intro n data
      simp [parse_unpacked, pspec, intCount]
    · intro d n ih data
      simp only [parse_unpacked, pspec,
        arrPGo_eq_aSpec d ih n data 0 (by omega), Int.toNat_zero,
        List.drop_zero]
      cases aSpec (pspec d) n data <;> simp [intCount]
    · intro fs ih data
      simp only [parse_unpacked, pspec, ih data 0 0 (by omega),
        Nat.cast_zero, Int.add_zero, Int.zero_add, Int.toNat_zero,
        List.drop_zero]
      cases pspecFields fs data with
      | none => simp
      | some q => simp [intCount]
    · intro data x off h
      simp [pufFields, pspecFields, intCount]
    · intro k d r ihd ihr data x off h
      simp only [pufFields, pspecFields, pySliceFrom_nonneg data _ h, ihd]
      cases hp : pspec d (data.drop ((x : Int) + off).toNat) with
      | none => simp [hp, intCount]
      | some p =>
        obtain ⟨v, c⟩ := p
        have h2 : 0 ≤ ((x + 1 : Nat) : Int) + (off + c - 1) := by
          push_cast; omega
        have h3 : (((x + 1 : Nat) : Int) + (off + c - 1)).toNat =
            ((x : Int) + off).toNat + c := by push_cast; omega
        simp only [hp, intCount, Option.map_some', optBind_some]
        rw [ihr data (x + 1) (off + c - 1) h2, h3]
        have h4 : ∀ l : List Val,
            l.drop (((x : Int) + off).toNat + c) =
              (l.drop ((x : Int) + off).toNat).drop c := by
          intro l; rw [List.drop_drop, Nat.add_comm]
        rw [h4]
        cases hq : pspecFields r
            ((data.drop ((x : Int) + off).toNat).drop c) with
        | none => simp [hq]
        | some q => simp [hq]; omega
  exact main

theorem aSpec_consumed (p : List Val → Option (Val × Nat)) (sw : Nat)
    (hp : ∀ data v n, p data = some (v, n) → n = sw) :
    ∀ rem data vs m, aSpec p rem data = some (vs, m) → m = rem * sw := by
  intro rem
  induction rem with
  | zero =>
    intro data vs m h
    simp [aSpec] at h
    omega
  | succ r ih =>
    intro data vs m h
    rw [aSpec] at h
    cases he : p data with
    | none => rw [he] at h; simp [optBind_none] at h
    | some q =>
      obtain ⟨v, c⟩ := q
      rw [he, optBind_some] at h
      dsimp only at h
      cases hq : aSpec p r (data.drop c) with
      | none => rw [hq] at h; simp [optBind_none] at h
      | some q2 =>
        obtain ⟨vs2, m2⟩ := q2
        rw [hq, optBind_some] at h
        simp at h
        have h1 := hp data v c he
        have h2 := ih (data.drop c) vs2 m2 hq
        subst h1 h2
        rw [Nat.succ_mul]
        omega

/-- The consumed-slot count every decode returns is exactly slot_width,
independent of the data. -/
theorem pspec_consumed :
    ∀ d, ∀ data v n, pspec d data = some (v, n) → n = slotW d := by
  refine descInd (Q := fun fs => ∀ data ps m,
      pspecFields fs data = some (ps, m) → m = slotWFields fs)
    ?_ ?_ ?_ ?_ ?_ ?_ ?_ ?_ ?_ ?_
  · intro w s data v n h
    cases data <;> simp [pspec, slotW] at h ⊢ <;> omega
  · intro data v n h
    cases data <;> simp [pspec, slotW] at h ⊢ <;> omega
  · intro data v n h
    cases data <;> simp [pspec, slotW] at h ⊢ <;> omega
  · intro m data v n h
    cases data <;> simp [pspec, slotW] at h ⊢ <;> omega
  · intro m t data v n h
    cases data with
    | nil => simp [pspec] at h
    | cons s rest =>
      cases s <;> simp [pspec, slotW] at h ⊢
      cases hu : utf8Decode _ <;> rw [hu] at h <;> simp at h
      omega
  · intro m data v n h
    simp [pspec, slotW] at h ⊢
    omega
  · intro d n ih data v m h
    simp only [pspec, slotW] at h ⊢
    cases ha : aSpec (pspec d) n data with
    | none => rw [ha] at h; simp at h
    | some q =>
      rw [ha] at h
      simp at h
      have := aSpec_consumed (pspec d) (slotW d) ih n data q.1 q.2 (by rw [ha])
      omega
  · intro fs ih data v m h
    simp only [pspec, slotW] at h ⊢
    cases ha : pspecFields fs data with
    | none => rw [ha] at h; simp at h
    | some q =>
      rw [ha] at h
      simp at h
      have := ih data q.1 q.2 (by rw [ha])
      omega
  · intro data ps m h
    simp [pspecFields, slotWFields] at h ⊢
    omega
  · intro k d r ihd ihr data ps m h
    rw [pspecFields] at h
    cases he : pspec d data with
    | none => rw [he] at h; simp [optBind_none] at h
    | some q =>
      obtain ⟨v, c⟩ := q
      rw [he, optBind_some] at h
      dsimp only at h
      cases hq : pspecFields r (data.drop c) with
      | none => rw [hq] at h; simp [optBind_none] at h
      | some q2 =>
        obtain ⟨ps2, m2⟩ := q2
        rw [hq, optBind_some] at h
        simp at h
        have h1 := ihd data v c he
        have h2 := ihr (data.drop c) ps2 m2 hq
        simp [slotWFields]
        omega

theorem aSpec_success (p : List Val → Option (Val × Nat)) (sw : Nat)
    (hp : ∀ data, sw ≤ data.length → ∃ v, p data = some (v, sw)) :
    ∀ rem data, rem * sw ≤ data.length →
      ∃ vs, aSpec p rem data = some (vs, rem * sw) := by
  intro rem
  induction rem with
  | zero => intro data h; exact ⟨[], by simp [aSpec]⟩
  | succ r ih =>
    intro data h
    rw [Nat.succ_mul] at h
    obtain ⟨v, hv⟩ := hp data (by omega)
    have hlen : r * sw ≤ (data.drop sw).length := by
      simp [List.length_drop]; omega
    obtain ⟨vs, hvs⟩ := ih (data.drop sw) hlen
    refine ⟨v :: vs, ?_⟩
    rw [aSpec, hv, optBind_some]
    dsimp only
    rw [hvs, optBind_some]
    simp [Nat.succ_mul]
    omega

/-- With no text field anywhere, a decode succeeds on any slot list at
least slot_width long (and consumes exactly slot_width). -/
theorem pspec_success :
    ∀ d, hasText d = false → ∀ data : List Val, slotW d ≤ data.length →
      ∃ v, pspec d data = some (v, slotW d) := by
  refine descInd (Q := fun fs => hasTextFields fs = false →
      ∀ data : List Val, slotWFields fs ≤ data.length →
      ∃ ps, pspecFields fs data = some (ps, slotWFields fs))
    ?_ ?_ ?_ ?_ ?_ ?_ ?_ ?_ ?_ ?_
  · intro w s _ data h
    cases data with
    | nil => simp [slotW] at h
    | cons a rest => exact ⟨a, by simp [pspec, slotW]⟩
  · intro _ data h
    cases data with
    | nil => simp [slotW] at h
    | cons a rest => exact ⟨a, by simp [pspec, slotW]⟩
  · intro _ data h
    cases data with
    | nil => simp [slotW] at h
    | cons a rest => exact ⟨a, by simp [pspec, slotW]⟩
  · intro n _ data h
    cases data with
    | nil => simp [slotW] at h
    | cons a rest => exact ⟨a, by simp [pspec, slotW]⟩
  · intro n t ht
    simp [hasText] at ht
  · intro n _ data _
    exact ⟨.vnone, by simp [pspec, slotW]⟩
  · intro d n ih ht data h
    rw [hasText] at ht
    have hsw : slotW (.darray d n) = n * slotW d := by rw [slotW]
    rw [hsw] at h ⊢
    obtain ⟨vs, hvs⟩ := aSpec_success (pspec d) (slotW d)
      (fun data h2 => ih ht data h2) n data h
    exact ⟨.vlist vs, by rw [pspec, hvs]; simp⟩
  · intro fs ih ht data h
    rw [hasText] at ht
    have hsw : slotW (.dstruct fs) = slotWFields fs := by rw [slotW]
    rw [hsw] at h ⊢
    obtain ⟨ps, hps⟩ := ih ht data h
    exact ⟨.vdict ps, by rw [pspec, hps]; simp⟩
  · intro _ data _
    exact ⟨[], by simp [pspecFields, slotWFields]⟩
  · intro k d r ihd ihr ht data h
    rw [hasTextFields] at ht
    simp at ht
    rw [slotWFields] at h
    obtain ⟨v, hv⟩ := ihd ht.1 data (by omega)
    have hlen : slotWFields r ≤ (data.drop (slotW d)).length := by
      simp [List.length_drop]; omega
    obtain ⟨ps, hps⟩ := ihr ht.2 (data.drop (slotW d)) hlen
    refine ⟨(k, v) :: ps, ?_⟩
    rw [pspecFields, hv, optBind_some]
    dsimp only
    rw [hps, optBind_some]
    simp [slotWFields]

/-- What one slot value becomes after a pack/unpack cycle of its token:
ints come back as ints (bools as 0/1), the bool format comes back as the
value's truthiness, byte blocks come back zero-padded or truncated to the
declared count. -/
def normTok : Tok → Val → Val
  | .tint _ _, v =>
    match v with
    | .vbool b => .vint (if b then 1 else 0)
    | v => v
  | .tbool, v => .vbool (pyTruthy v)
  | .tchar, v => v
  | .tstr n, v =>
    match v with
    | .vbytes bs => .vbytes (bs.take n ++ List.replicate (n - bs.length) 0)
    | v => v
  | .tpad _, v => v

/-- Slot-wise normalization of a packed value list along its format. -/
def normToks : List Tok → List Val → List Val
  | [], _ => []
  | .tpad _ :: ts, slots => normToks ts slots
  | _ :: _, [] => []
  | t :: ts, s :: slots => normTok t s :: normToks ts slots

/-- All integer tokens have positive widths (true of every struct format
the library can generate). -/
def toksWF (ts : List Tok) : Bool :=
  ts.all fun t =>
    match t with
    | .tint w _ => decide (0 < w)
    | _ => true

theorem leBytes_length : ∀ w x, (leBytes w x).length = w := by
  intro w
  induction w with
  | zero => intro x; simp [leBytes]
  | succ v ih => intro x; simp [leBytes, ih]

theorem leVal_leBytes : ∀ w x, x < 2 ^ (8 * w) → leVal (leBytes w x) = x := by
  intro w
  induction w with
  | zero =>
    intro x h
    simp at h
    simp [h, leBytes, leVal]
  | succ v ih =>
    intro x h
    have hp : 2 ^ (8 * (v + 1)) = 2 ^ (8 * v) * 256 := by
      have h8 : 8 * (v + 1) = 8 * v + 8 := by ring
      rw [h8, pow_add]
      norm_num
    rw [hp] at h
    have hx : x / 256 < 2 ^ (8 * v) := by omega
    rw [leBytes, leVal, ih (x / 256) hx]
    omega

theorem packIntCore_length (w : Nat) (sgn : Bool) (i : Int) (bs : List Nat)
    (h : packIntCore w sgn i = some bs) : bs.length = w := by
  rw [packIntCore] at h
  split at h
  · split at h
    · simp only [Option.some.injEq] at h
      rw [← h]
      exact leBytes_length _ _
    · exact absurd h (by simp)
  · split at h
    · simp only [Option.some.injEq] at h
      rw [← h]
      exact leBytes_length _ _
    · exact absurd h (by simp)

theorem packIntVal_length (w : Nat) (sgn : Bool) (v : Val) (bs : List Nat)
    (h : packIntVal w sgn v = some bs) : bs.length = w := by
  rcases v with i | b | _ | _ | _ | _ | _ <;> simp only [packIntVal] at h
  · exact packIntCore_length w sgn i bs h
  · exact packIntCore_length w sgn _ bs h
  all_goals exact absurd h (by simp)

theorem decIntVal_packIntCore (w : Nat) (sgn : Bool) (i : Int) (bs : List Nat)
    (hw : 0 < w) (h : packIntCore w sgn i = some bs) :
    decIntVal w sgn bs = .vint i := by
  have h8 : 8 * w = (8 * w - 1) + 1 := by omega
  have hNsplit : (2 : Nat) ^ (8 * w) = 2 ^ (8 * w - 1) * 2 := by
    have hs := pow_succ (2 : Nat) (8 * w - 1)
    rw [← h8] at hs
    exact hs
  have hcastN : ((2 ^ (8 * w) : Nat) : Int) = (2 : Int) ^ (8 * w) := by
    push_cast; ring
  have hcastN1 : ((2 ^ (8 * w - 1) : Nat) : Int) = (2 : Int) ^ (8 * w - 1) := by
    push_cast; ring
  rw [packIntCore] at h
  rcases sgn with _ | _
  · simp only [Bool.false_eq_true, if_false] at h
    split at h
    · rename_i hr
      obtain ⟨h0, hlt⟩ := hr
      simp only [Option.some.injEq] at h
      subst h
      rw [← hcastN] at hlt
      have hltN : i.toNat < 2 ^ (8 * w) := by omega
      rw [decIntVal, leVal_leBytes w i.toNat hltN]
      rw [if_neg (by simp)]
      congr 1
      omega
    · exact absurd h (by simp)
  · simp only [if_true] at h
    split at h
    · rename_i hr
      obtain ⟨hge, hlt⟩ := hr
      simp only [Option.some.injEq] at h
      subst h
      rw [← hcastN1] at hge hlt
      rcases le_or_lt 0 i with hpos | hneg
      · have hmod : i % ((2 : Int) ^ (8 * w)) = i := by
          apply Int.emod_eq_of_lt hpos
          rw [← hcastN]
          omega
        rw [hmod]
        have hltN : i.toNat < 2 ^ (8 * w) := by omega
        rw [decIntVal, leVal_leBytes w i.toNat hltN]
        have hsm : ¬ (2 ^ (8 * w - 1) ≤ i.toNat) := by omega
        rw [if_neg (by simp [hsm])]
        congr 1
        omega
      · have hmod : i % ((2 : Int) ^ (8 * w)) = i + 2 ^ (8 * w) := by
          have hself := Int.add_mul_emod_self_left
            (a := i) (b := (2 : Int) ^ (8 * w)) (c := 1)
          rw [mul_one] at hself
          rw [← hself]
          apply Int.emod_eq_of_lt
          · rw [← hcastN]
            omega
          · rw [← hcastN]
            omega
        rw [hmod]
        have hltN : (i + (2 : Int) ^ (8 * w)).toNat < 2 ^ (8 * w) := by
          rw [← hcastN] at *
          omega
        rw [decIntVal, leVal_leBytes w _ hltN]
        have hgeN : 2 ^ (8 * w - 1) ≤ (i + (2 : Int) ^ (8 * w)).toNat := by
          rw [← hcastN] at *
          omega
        rw [if_pos ⟨rfl, hgeN⟩]
        congr 1
        rw [← hcastN] at *
        omega
    · exact absurd h (by simp)

theorem decIntVal_packIntVal (w : Nat) (sgn : Bool) (v : Val) (bs : List Nat)
    (hw : 0 < w) (h : packIntVal w sgn v = some bs) :
    decIntVal w sgn bs = normTok (.tint w sgn) v := by
  rcases v with i | b | _ | _ | _ | _ | _ <;> simp only [packIntVal] at h
  · rw [decIntVal_packIntCore w sgn i bs hw h]
    rfl
  · rw [decIntVal_packIntCore w sgn _ bs hw h]
    rfl
  all_goals exact absurd h (by simp)


theorem alignUp_one (pos : Nat) : alignUp pos 1 = pos := by
  simp [alignUp]
  omega

theorem le_alignUp (pos a : Nat) : pos ≤ alignUp pos a := by
  unfold alignUp
  split <;> omega

theorem endPos_append : ∀ (a b : List Tok) (pos : Nat),
    endPos (a ++ b) pos = endPos b (endPos a pos) := by
  intro a
  induction a with
  | nil => intro b pos; simp [endPos]
  | cons t ts ih => intro b pos; rw [List.cons_append, endPos, endPos, ih]

theorem drop_concat_left (pre out : List α) :
    (pre ++ out).drop pre.length = out := by
  simp

theorem read_mid (pre mid rest : List α) (w : Nat) (hm : mid.length = w) :
    ((pre ++ (mid ++ rest)).drop pre.length).take w = mid := by
  rw [drop_concat_left, ← hm, List.take_left]

theorem byteAt_concat (pre : List Nat) (b : Nat) (rest : List Nat) :
    byteAt (pre ++ b :: rest) pre.length = b := by
  simp [byteAt, drop_concat_left]

theorem padTrunc_length (n : Nat) (bs : List Nat) :
    (bs.take n ++ List.replicate (n - bs.length) 0).length = n := by
  simp [List.length_take]
  omega

/-- struct.pack writes exactly the format's byte size. -/
theorem packToks_length : ∀ (ts : List Tok) (slots : List Val) (pos : Nat)
    (out : List Nat), packToks ts slots pos = some out →
    pos + out.length = endPos ts pos := by
  intro ts
  induction ts with
  | nil =>
    intro slots pos out h
    cases slots with
    | nil =>
      simp only [packToks, Option.some.injEq] at h
      subst h
      simp [endPos]
    | cons s ss => simp [packToks] at h
  | cons t ts ih =>
    intro slots pos out h
    cases t with
    | tpad n =>
      rw [packToks] at h
      cases hq : packToks ts slots (pos + n) with
      | none => rw [hq] at h; simp at h
      | some o2 =>
        rw [hq] at h
        simp only [Option.map_some', Option.some.injEq] at h
        subst h
        have htail := ih slots (pos + n) o2 hq
        rw [endPos]
        simp only [tokAlign, tokWidth]
        rw [alignUp_one]
        simp only [List.length_append, List.length_replicate]
        omega
    | tint w sgn =>
      cases slots with
      | nil => simp [packToks] at h
      | cons s ss =>
        simp only [packToks] at h
        cases hb : packIntVal w sgn s with
        | none => rw [hb] at h; simp [optBind_none] at h
        | some ibytes =>
          rw [hb, optBind_some] at h
          cases hq : packToks ts ss (alignUp pos w + w) with
          | none => rw [hq] at h; simp [optBind_none] at h
          | some o2 =>
            rw [hq, optBind_some] at h
            simp only [Option.pure_def, Option.some.injEq] at h
            subst h
            have hlen := packIntVal_length w sgn s ibytes hb
            have htail := ih ss (alignUp pos w + w) o2 hq
            have hle := le_alignUp pos w
            rw [endPos]
            simp only [tokAlign, tokWidth, List.length_append,
              List.length_replicate, hlen]
            omega
    | tbool =>
      cases slots with
      | nil => simp [packToks] at h
      | cons s ss =>
        simp only [packToks] at h
        cases hq : packToks ts ss (pos + 1) with
        | none => rw [hq] at h; simp at h
        | some o2 =>
          rw [hq] at h
          simp only [Option.map_some', Option.some.injEq] at h
          subst h
          have htail := ih ss (pos + 1) o2 hq
          rw [endPos]
          simp only [tokAlign, tokWidth]
          rw [alignUp_one]
          simp only [List.length_cons]
          omega
    | tchar =>
      cases slots with
      | nil => simp [packToks] at h
      | cons s ss =>
        rcases s with i | b2 | bl | st | _ | l | dd
        case vbytes =>
          rcases bl with _ | ⟨b, _ | ⟨b2x, bl3⟩⟩
          · simp [packToks] at h
          · simp only [packToks] at h
            cases hq : packToks ts ss (pos + 1) with
            | none => rw [hq] at h; simp at h
            | some o2 =>
              rw [hq] at h
              simp only [Option.map_some', Option.some.injEq] at h
              subst h
              have htail := ih ss (pos + 1) o2 hq
              rw [endPos]
              simp only [tokAlign, tokWidth]
              rw [alignUp_one]
              simp only [List.length_cons]
              omega
          · simp [packToks] at h
        all_goals simp [packToks] at h
    | tstr n =>
      cases slots with
      | nil => simp [packToks] at h
      | cons s ss =>
        rcases s with i | b2 | bs | st | _ | l | dd
        case vbytes =>
          simp only [packToks] at h
          cases hq : packToks ts ss (pos + n) with
          | none => rw [hq] at h; simp at h
          | some o2 =>
            rw [hq] at h
            simp only [Option.map_some', Option.some.injEq] at h
            subst h
            have htail := ih ss (pos + n) o2 hq
            have hpt := padTrunc_length n bs
            rw [endPos]
            simp only [tokAlign, tokWidth]
            rw [alignUp_one]
            simp only [List.length_append, hpt]
            omega
        all_goals simp [packToks] at h

/-- Reading back what struct.pack wrote yields the packed values,
normalized slot-wise. -/
theorem packToks_read : ∀ (ts : List Tok) (slots : List Val) (pos : Nat)
    (out : List Nat), toksWF ts = true → packToks ts slots pos = some out →
    ∀ pre rest : List Nat, pre.length = pos →
    readToks ts (pre ++ out ++ rest) pos = normToks ts slots := by
  intro ts
  induction ts with
  | nil =>
    intro slots pos out _ h pre rest hpre
    rw [readToks]; simp only [normToks]
  | cons t ts ih =>
    intro slots pos out hwf h pre rest hpre
    have hwf2 : toksWF ts = true := by
      simp only [toksWF, List.all_cons, Bool.and_eq_true] at hwf
      exact hwf.2
    cases t with
    | tpad n =>
      rw [packToks] at h
      cases hq : packToks ts slots (pos + n) with
      | none => rw [hq] at h; simp at h
      | some o2 =>
        rw [hq] at h
        simp only [Option.map_some', Option.some.injEq] at h
        subst h
        rw [readToks]; simp only [normToks]
        have hre : pre ++ (List.replicate n 0 ++ o2) ++ rest =
            (pre ++ List.replicate n 0) ++ o2 ++ rest := by simp
        rw [hre]
        exact ih slots (pos + n) o2 hwf2 hq (pre ++ List.replicate n 0) rest
          (by simp [hpre])
    | tint w sgn =>
      have hw : 0 < w := by
        simp only [toksWF, List.all_cons, Bool.and_eq_true] at hwf
        have := hwf.1
        simpa using this
      cases slots with
      | nil => simp [packToks] at h
      | cons s ss =>
        simp only [packToks] at h
        cases hb : packIntVal w sgn s with
        | none => rw [hb] at h; simp [optBind_none] at h
        | some ibytes =>
          rw [hb, optBind_some] at h
          cases hq : packToks ts ss (alignUp pos w + w) with
          | none => rw [hq] at h; simp [optBind_none] at h
          | some o2 =>
            rw [hq, optBind_some] at h
            simp only [Option.pure_def, Option.some.injEq] at h
            subst h
            have hlen := packIntVal_length w sgn s ibytes hb
            have hle := le_alignUp pos w
            rw [readToks]; simp only [normToks]
            have hre : pre ++ (List.replicate (alignUp pos w - pos) 0 ++
                ibytes ++ o2) ++ rest =
                (pre ++ List.replicate (alignUp pos w - pos) 0) ++
                  (ibytes ++ (o2 ++ rest)) := by simp
            have hpre2 : (pre ++ List.replicate (alignUp pos w - pos) 0).length =
                alignUp pos w := by
              simp only [List.length_append, List.length_replicate, hpre]
              omega
            rw [hre]
            have hmid := read_mid (pre ++ List.replicate (alignUp pos w - pos) 0)
              ibytes (o2 ++ rest) w hlen
            rw [hpre2] at hmid
            rw [hmid, decIntVal_packIntVal w sgn s ibytes hw hb]
            congr 1
            have hre2 : (pre ++ List.replicate (alignUp pos w - pos) 0) ++
                (ibytes ++ (o2 ++ rest)) =
                ((pre ++ List.replicate (alignUp pos w - pos) 0) ++ ibytes) ++
                  o2 ++ rest := by simp
            rw [hre2]
            refine ih ss (alignUp pos w + w) o2 hwf2 hq _ rest ?_
            simp only [List.length_append, List.length_replicate, hpre, hlen]
            omega
    | tbool =>
      cases slots with
      | nil => simp [packToks] at h
      | cons s ss =>
        simp only [packToks] at h
        cases hq : packToks ts ss (pos + 1) with
        | none => rw [hq] at h; simp at h
        | some o2 =>
          rw [hq] at h
          simp only [Option.map_some', Option.some.injEq] at h
          subst h
          rw [readToks]; simp only [normToks]
          have hsplit : pre ++ ((if pyTruthy s then 1 else 0) :: o2) ++ rest =
              pre ++ ((if pyTruthy s then 1 else 0) :: (o2 ++ rest)) := by simp
          have hba : byteAt (pre ++ ((if pyTruthy s then 1 else 0) :: o2) ++ rest)
              pos = (if pyTruthy s then 1 else 0) := by
            rw [hsplit, ← hpre]
            exact byteAt_concat pre _ (o2 ++ rest)
          rw [hba]
          have hnorm : ((if pyTruthy s then (1 : Nat) else 0) != 0) =
              pyTruthy s := by
            cases pyTruthy s <;> simp
          rw [hnorm, normTok]
          congr 1
          have hre : pre ++ ((if pyTruthy s then 1 else 0) :: o2) ++ rest =
              (pre ++ [if pyTruthy s then 1 else 0]) ++ o2 ++ rest := by simp
          rw [hre]
          exact ih ss (pos + 1) o2 hwf2 hq _ rest (by simp [hpre])
    | tchar =>
      cases slots with
      | nil => simp [packToks] at h
      | cons s ss =>
        rcases s with i | b2 | bl | st | _ | l | dd
        case vbytes =>
          rcases bl with _ | ⟨b, _ | ⟨b2x, bl3⟩⟩
          · simp [packToks] at h
          · simp only [packToks] at h
            cases hq : packToks ts ss (pos + 1) with
            | none => rw [hq] at h; simp at h
            | some o2 =>
              rw [hq] at h
              simp only [Option.map_some', Option.some.injEq] at h
              subst h
              rw [readToks]; simp only [normToks]
              have hsplit : pre ++ (b :: o2) ++ rest =
                  pre ++ b :: (o2 ++ rest) := by simp
              have hba : byteAt (pre ++ (b :: o2) ++ rest) pos = b := by
                rw [hsplit, ← hpre]
                exact byteAt_concat pre b (o2 ++ rest)
              rw [hba, normTok]
              congr 1
              have hre : pre ++ (b :: o2) ++ rest =
                  (pre ++ [b]) ++ o2 ++ rest := by simp
              rw [hre]
              exact ih ss (pos + 1) o2 hwf2 hq _ rest (by simp [hpre])
          · simp [packToks] at h
        all_goals simp [packToks] at h
    | tstr n =>
      cases slots with
      | nil => simp [packToks] at h
      | cons s ss =>
        rcases s with i | b2 | bs | st | _ | l | dd
        case vbytes =>
          simp only [packToks] at h
          cases hq : packToks ts ss (pos + n) with
          | none => rw [hq] at h; simp at h
          | some o2 =>
            rw [hq] at h
            simp only [Option.map_some', Option.some.injEq] at h
            subst h
            rw [readToks]; simp only [normToks]
            have hpt := padTrunc_length n bs
            have hre : pre ++ ((bs.take n ++ List.replicate (n - bs.length) 0) ++
                o2) ++ rest =
                pre ++ ((bs.take n ++ List.replicate (n - bs.length) 0) ++
                  (o2 ++ rest)) := by simp
            have hmid : ((pre ++ ((bs.take n ++
                List.replicate (n - bs.length) 0) ++
                (o2 ++ rest))).drop pos).take n =
                bs.take n ++ List.replicate (n - bs.length) 0 := by
              rw [← hpre]
              exact read_mid _ _ _ n hpt
            rw [hre, hmid, normTok]
            congr 1
            have hre2 : pre ++ ((bs.take n ++
                List.replicate (n - bs.length) 0) ++ (o2 ++ rest)) =
                (pre ++ (bs.take n ++ List.replicate (n - bs.length) 0)) ++
                  o2 ++ rest := by simp
            rw [hre2]
            refine ih ss (pos + n) o2 hwf2 hq _ rest ?_
            simp only [List.length_append, hpt, hpre]
        all_goals simp [packToks] at h


theorem utf8EncodeChar_decode (c : Nat) (bs : List Nat)
    (h : utf8EncodeChar c = some bs) (t : List Nat) :
    utf8Decode (bs ++ t) = (utf8Decode t).map (c :: ·) := by
  rw [utf8EncodeChar] at h
  split at h
  · rename_i hc
    simp only [Option.some.injEq] at h
    subst h
    simp only [List.cons_append, List.nil_append]
    rw [utf8Decode]
    rw [if_pos hc]
  · split at h
    · rename_i hc1 hc2
      simp only [Option.some.injEq] at h
      subst h
      have h1 : ¬ (0xC0 + c / 0x40 < 0x80) := by omega
      have h2 : ¬ (0xC0 + c / 0x40 < 0xC2) := by omega
      have h3 : 0xC0 + c / 0x40 < 0xE0 := by omega
      have h4 : 0x80 ≤ 0x80 + c % 0x40 ∧ 0x80 + c % 0x40 < 0xC0 := by omega
      simp only [List.cons_append, List.nil_append]
      rw [utf8Decode]
      rw [if_neg h1, if_neg h2, if_pos h3]
      rw [utf8Dec2, if_pos h4]
      have hval : (0xC0 + c / 0x40 - 0xC0) * 0x40 + (0x80 + c % 0x40 - 0x80) =
          c := by omega
      rw [hval]
    · split at h
      · exact absurd h (by simp)
      · split at h
        · rename_i hc1 hc2 hsur hc3
          simp only [Option.some.injEq] at h
          subst h
          have h1 : ¬ (0xE0 + c / 0x1000 < 0x80) := by omega
          have h2 : ¬ (0xE0 + c / 0x1000 < 0xC2) := by omega
          have h3 : ¬ (0xE0 + c / 0x1000 < 0xE0) := by omega
          have h4 : 0xE0 + c / 0x1000 < 0xF0 := by omega
          have h5 : (0x80 ≤ 0x80 + c / 0x40 % 0x40 ∧
              0x80 + c / 0x40 % 0x40 < 0xC0) ∧
              0x80 ≤ 0x80 + c % 0x40 ∧ 0x80 + c % 0x40 < 0xC0 := by omega
          have hval3 : dec3val (0xE0 + c / 0x1000) (0x80 + c / 0x40 % 0x40)
              (0x80 + c % 0x40) = c := by
            simp only [dec3val]
            omega
          simp only [List.cons_append, List.nil_append]
          rw [utf8Decode]
          rw [if_neg h1, if_neg h2, if_neg h3, if_pos h4]
          rw [utf8Dec3, if_pos h5, hval3]
          rw [if_pos ⟨by omega, hsur⟩]
        · rename_i hc1 hc2 hsur hc3
          split at h
          · rename_i hc4
            simp only [Option.some.injEq] at h
            subst h
            have h1 : ¬ (0xF0 + c / 0x40000 < 0x80) := by omega
            have h2 : ¬ (0xF0 + c / 0x40000 < 0xC2) := by omega
            have h3 : ¬ (0xF0 + c / 0x40000 < 0xE0) := by omega
            have h4 : ¬ (0xF0 + c / 0x40000 < 0xF0) := by omega
            have h5 : 0xF0 + c / 0x40000 < 0xF5 := by omega
            have h6 : (0x80 ≤ 0x80 + c / 0x1000 % 0x40 ∧
                0x80 + c / 0x1000 % 0x40 < 0xC0) ∧
                (0x80 ≤ 0x80 + c / 0x40 % 0x40 ∧
                0x80 + c / 0x40 % 0x40 < 0xC0) ∧
                0x80 ≤ 0x80 + c % 0x40 ∧ 0x80 + c % 0x40 < 0xC0 := by omega
            have hval4 : dec4val (0xF0 + c / 0x40000) (0x80 + c / 0x1000 % 0x40)
                (0x80 + c / 0x40 % 0x40) (0x80 + c % 0x40) = c := by
              simp only [dec4val]
              omega
            simp only [List.cons_append, List.nil_append]
            rw [utf8Decode]
            rw [if_neg h1, if_neg h2, if_neg h3, if_neg h4, if_pos h5]
            rw [utf8Dec4, if_pos h6, hval4]
            rw [if_pos ⟨by omega, by omega⟩]
          · exact absurd h (by simp)

theorem utf8Encode_decode : ∀ (s enc : List Nat), utf8Encode s = some enc →
    ∀ t, utf8Decode (enc ++ t) = (utf8Decode t).map (s ++ ·) := by
  intro s
  induction s with
  | nil =>
    intro enc h t
    simp only [utf8Encode, Option.some.injEq] at h
    subst h
    simp only [List.nil_append]
    cases utf8Decode t <;> simp
  | cons c cs ih =>
    intro enc h t
    rw [utf8Encode] at h
    cases hc : utf8EncodeChar c with
    | none => rw [hc] at h; simp [optBind_none] at h
    | some cb =>
      rw [hc, optBind_some] at h
      cases hcs : utf8Encode cs with
      | none => rw [hcs] at h; simp [optBind_none] at h
      | some cse =>
        rw [hcs, optBind_some] at h
        simp only [Option.pure_def, Option.some.injEq] at h
        subst h
        rw [List.append_assoc, utf8EncodeChar_decode c cb hc,
          ih cse hcs t]
        cases utf8Decode t <;> simp

theorem utf8Decode_zeros : ∀ k,
    utf8Decode (List.replicate k 0) = some (List.replicate k 0) := by
  intro k
  induction k with
  | zero => simp [utf8Decode]
  | succ m ih =>
    rw [List.replicate_succ, utf8Decode]
    rw [if_pos (by norm_num)]
    rw [ih]
    simp [List.replicate_succ]

theorem pyFindAux_concat (c : Nat) :
    ∀ (s : List Nat) (i : Nat) (r : List Nat), (∀ x ∈ s, x ≠ c) →
    pyFindAux c (s ++ c :: r) i = ((i + s.length : Nat) : Int) := by
  intro s
  induction s with
  | nil =>
    intro i r _
    simp [pyFindAux]
  | cons a as ih =>
    intro i r hs
    have ha : a ≠ c := hs a (by simp)
    rw [List.cons_append, pyFindAux, if_neg ha, ih (i + 1) r
      (fun x hx => hs x (by simp [hx]))]
    congr 1
    simp
    omega

theorem pyFind_concat (c : Nat) (s : List Nat) (r : List Nat)
    (hs : ∀ x ∈ s, x ≠ c) :
    pyFind c (s ++ c :: r) = (s.length : Int) := by
  rw [pyFind, pyFindAux_concat c s 0 r hs]
  simp

theorem pyTakeTo_length_concat (s r : List Nat) :
    pyTakeTo (s ++ r) (s.length : Int) = s := by
  rw [pyTakeTo, if_pos (by omega)]
  simp

theorem toksWF_append (a b : List Tok) :
    toksWF (a ++ b) = (toksWF a && toksWF b) := by
  simp [toksWF, List.all_append]

theorem toksWF_fmtRep (n : Nat) (f : List Tok) (h : toksWF f = true) :
    toksWF (fmtRep n f) = true := by
  induction n with
  | zero => simp [fmtRep, toksWF]
  | succ m ih => simp [fmtRep, toksWF_append, h, ih]

theorem toksWF_format : ∀ d, wfD d = true → toksWF (format d) = true :=
  descInd (Q := fun fs => wfFields fs = true → toksWF (formatFields fs) = true)
    (fun w s => by
      intro h
      simp [wfD] at h
      simp [format, toksWF, h])
    (by intro h; simp [format, toksWF])
    (by intro h; simp [format, toksWF])
    (fun n => by intro h; simp [format, toksWF])
    (fun n t => by intro h; simp [format, toksWF])
    (fun n => by intro h; simp [format, toksWF])
    (fun d n ih => by
      intro h
      rw [wfD] at h
      rw [format]
      exact toksWF_fmtRep n (format d) (ih h))
    (fun fs ih => by
      intro h
      rw [wfD] at h
      simp at h
      rw [format]
      exact ih h.2)
    (by intro h; simp [formatFields, toksWF])
    (fun k d r ihd ihr => by
      intro h
      rw [wfFields] at h
      simp at h
      rw [formatFields, toksWF_append]
      simp [ihd h.1, ihr h.2])

theorem normToks_append : ∀ (t1 : List Tok) (s1 : List Val) (t2 : List Tok)
    (s2 : List Val), s1.length = countSlots t1 →
    normToks (t1 ++ t2) (s1 ++ s2) = normToks t1 s1 ++ normToks t2 s2 := by
  intro t1
  induction t1 with
  | nil =>
    intro s1 t2 s2 h
    simp only [countSlots, List.map_nil, List.sum_nil] at h
    rw [List.length_eq_zero] at h
    subst h
    simp [normToks]
  | cons t t1' ih =>
    intro s1 t2 s2 h
    cases t with
    | tpad n =>
      simp only [List.cons_append, normToks]
      exact ih s1 t2 s2 (by simp [countSlots, tokSlots] at h ⊢; omega)
    | tint w sgn =>
      cases s1 with
      | nil => simp [countSlots, tokSlots] at h; omega
      | cons v s1' =>
        simp only [List.cons_append, normToks, List.cons.injEq, true_and]
        exact ih s1' t2 s2 (by simp [countSlots, tokSlots] at h ⊢; omega)
    | tbool =>
      cases s1 with
      | nil => simp [countSlots, tokSlots] at h; omega
      | cons v s1' =>
        simp only [List.cons_append, normToks, List.cons.injEq, true_and]
        exact ih s1' t2 s2 (by simp [countSlots, tokSlots] at h ⊢; omega)
    | tchar =>
      cases s1 with
      | nil => simp [countSlots, tokSlots] at h; omega
      | cons v s1' =>
        simp only [List.cons_append, normToks, List.cons.injEq, true_and]
        exact ih s1' t2 s2 (by simp [countSlots, tokSlots] at h ⊢; omega)
    | tstr n =>
      cases s1 with
      | nil => simp [countSlots, tokSlots] at h; omega
      | cons v s1' =>
        simp only [List.cons_append, normToks, List.cons.injEq, true_and]
        exact ih s1' t2 s2 (by simp [countSlots, tokSlots] at h ⊢; omega)

theorem normToks_length : ∀ (ts : List Tok) (s : List Val),
    s.length = countSlots ts → (normToks ts s).length = countSlots ts := by
  intro ts
  induction ts with
  | nil => intro s h; simp [normToks, countSlots]
  | cons t ts' ih =>
    intro s h
    cases t with
    | tpad n =>
      rw [normToks]
      have := ih s (by simp [countSlots, tokSlots] at h ⊢; omega)
      simp [countSlots, tokSlots] at this ⊢
      omega
    | tint w sgn =>
      cases s with
      | nil => simp [countSlots, tokSlots] at h; omega
      | cons v s' =>
        simp only [normToks, List.length_cons, countSlots, List.map_cons,
          List.sum_cons, tokSlots]
        have := ih s' (by simp [countSlots, tokSlots] at h ⊢; omega)
        simp [countSlots] at this
        omega
    | tbool =>
      cases s with
      | nil => simp [countSlots, tokSlots] at h; omega
      | cons v s' =>
        simp only [normToks, List.length_cons, countSlots, List.map_cons,
          List.sum_cons, tokSlots]
        have := ih s' (by simp [countSlots, tokSlots] at h ⊢; omega)
        simp [countSlots] at this
        omega
    | tchar =>
      cases s with
      | nil => simp [countSlots, tokSlots] at h; omega
      | cons v s' =>
        simp only [normToks, List.length_cons, countSlots, List.map_cons,
          List.sum_cons, tokSlots]
        have := ih s' (by simp [countSlots, tokSlots] at h ⊢; omega)
        simp [countSlots] at this
        omega
    | tstr n =>
      cases s with
      | nil => simp [countSlots, tokSlots] at h; omega
      | cons v s' =>
        simp only [normToks, List.length_cons, countSlots, List.map_cons,
          List.sum_cons, tokSlots]
        have := ih s' (by simp [countSlots, tokSlots] at h ⊢; omega)
        simp [countSlots] at this
        omega

/-- Position-independent condition for struct.pack to succeed: right value
count and every value convertible under its token. -/
def packOK : List Tok → List Val → Bool
  | [], [] => true
  | [], _ :: _ => false
  | .tpad _ :: ts, slots => packOK ts slots
  | _ :: _, [] => false
  | .tint w sgn :: ts, s :: slots => (packIntVal w sgn s).isSome && packOK ts slots
  | .tbool :: ts, _ :: slots => packOK ts slots
  | .tchar :: ts, s :: slots =>
    (match s with
     | .vbytes [_] => true
     | _ => false) && packOK ts slots
  | .tstr _ :: ts, s :: slots =>
    (match s with
     | .vbytes _ => true
     | _ => false) && packOK ts slots

theorem packOK_some : ∀ (ts : List Tok) (slots : List Val),
    packOK ts slots = true → ∀ pos, ∃ out, packToks ts slots pos = some out := by
  intro ts
  induction ts with
  | nil =>
    intro slots h pos
    cases slots with
    | nil => exact ⟨[], rfl⟩
    | cons s ss => simp [packOK] at h
  | cons t ts' ih =>
    intro slots h pos
    cases t with
    | tpad n =>
      rw [packOK] at h
      obtain ⟨o, ho⟩ := ih slots h (pos + n)
      exact ⟨List.replicate n 0 ++ o, by rw [packToks, ho]; rfl⟩
    | tint w sgn =>
      cases slots with
      | nil => simp [packOK] at h
      | cons s ss =>
        rw [packOK] at h
        simp only [Bool.and_eq_true, Option.isSome_iff_exists] at h
        obtain ⟨⟨ib, hib⟩, h2⟩ := h
        obtain ⟨o, ho⟩ := ih ss h2 (alignUp pos w + w)
        refine ⟨List.replicate (alignUp pos w - pos) 0 ++ ib ++ o, ?_⟩
        simp only [packToks]
        rw [hib, optBind_some, ho, optBind_some]
        rfl
    | tbool =>
      cases slots with
      | nil => simp [packOK] at h
      | cons s ss =>
        rw [packOK] at h
        obtain ⟨o, ho⟩ := ih ss h (pos + 1)
        exact ⟨(if pyTruthy s then 1 else 0) :: o, by
          simp only [packToks]; rw [ho]; rfl⟩
    | tchar =>
      cases slots with
      | nil => simp [packOK] at h
      | cons s ss =>
        rcases s with i | b2 | bl | st | _ | l | dd
        case vbytes =>
          rcases bl with _ | ⟨b, _ | ⟨c2, bl3⟩⟩
          · simp [packOK] at h
          · simp only [packOK, Bool.true_and] at h
            obtain ⟨o, ho⟩ := ih ss h (pos + 1)
            exact ⟨b :: o, by simp only [packToks]; rw [ho]; rfl⟩
          · simp [packOK] at h
        all_goals simp [packOK] at h
    | tstr n =>
      cases slots with
      | nil => simp [packOK] at h
      | cons s ss =>
        rcases s with i | b2 | bl | st | _ | l | dd
        case vbytes =>
          simp only [packOK, Bool.true_and] at h
          obtain ⟨o, ho⟩ := ih ss h (pos + n)
          exact ⟨(bl.take n ++ List.replicate (n - bl.length) 0) ++ o, by
            simp only [packToks]; rw [ho]; rfl⟩
        all_goals simp [packOK] at h

theorem packOK_append : ∀ (t1 : List Tok) (s1 : List Val) (t2 : List Tok)
    (s2 : List Val), s1.length = countSlots t1 → packOK t1 s1 = true →
    packOK t2 s2 = true → packOK (t1 ++ t2) (s1 ++ s2) = true := by
  intro t1
  induction t1 with
  | nil =>
    intro s1 t2 s2 h h1 h2
    simp only [countSlots, List.map_nil, List.sum_nil] at h
    rw [List.length_eq_zero] at h
    subst h
    simpa using h2
  | cons t t1' ih =>
    intro s1 t2 s2 h h1 h2
    cases t with
    | tpad n =>
      rw [packOK] at h1
      rw [List.cons_append, packOK]
      exact ih s1 t2 s2 (by simp [countSlots, tokSlots] at h ⊢; omega) h1 h2
    | tint w sgn =>
      cases s1 with
      | nil => simp [packOK] at h1
      | cons v s1' =>
        rw [packOK] at h1
        simp only [Bool.and_eq_true] at h1
        rw [List.cons_append, List.cons_append, packOK]
        simp only [Bool.and_eq_true]
        exact ⟨h1.1, ih s1' t2 s2 (by simp [countSlots, tokSlots] at h ⊢; omega)
          h1.2 h2⟩
    | tbool =>
      cases s1 with
      | nil => simp [packOK] at h1
      | cons v s1' =>
        rw [packOK] at h1
        rw [List.cons_append, List.cons_append, packOK]
        exact ih s1' t2 s2 (by simp [countSlots, tokSlots] at h ⊢; omega) h1 h2
    | tchar =>
      cases s1 with
      | nil => simp [packOK] at h1
      | cons v s1' =>
        rcases v with i | b2 | bl | st | _ | l | dd
        case vbytes =>
          rcases bl with _ | ⟨b, _ | ⟨c2, bl3⟩⟩
          · simp [packOK] at h1
          · simp only [packOK, Bool.true_and] at h1
            rw [List.cons_append, List.cons_append]
            simp only [packOK, Bool.true_and]
            exact ih s1' t2 s2 (by simp [countSlots, tokSlots] at h ⊢; omega)
              h1 h2
          · simp [packOK] at h1
        all_goals simp [packOK] at h1
    | tstr n =>
      cases s1 with
      | nil => simp [packOK] at h1
      | cons v s1' =>
        rcases v with i | b2 | bl | st | _ | l | dd
        case vbytes =>
          simp only [packOK, Bool.true_and] at h1
          rw [List.cons_append, List.cons_append]
          simp only [packOK, Bool.true_and]
          exact ih s1' t2 s2 (by simp [countSlots, tokSlots] at h ⊢; omega)
            h1 h2
        all_goals simp [packOK] at h1

/-- ARRAY.create_packlist's loop as a simple left-to-right fold over the
elements actually visited. -/
def arrSimple (f : Val → Option (List Val)) : List Val → Option (List Val)
  | [] => some []
  | x :: xs => do pure ((← f x) ++ (← arrSimple f xs))

theorem pyIndex_lt (l : List Val) (i : Nat) (h : i < l.length) :
    pyIndex l i = some l[i] := by
  induction l generalizing i with
  | nil => simp at h
  | cons x xs ih =>
    cases i with
    | zero => rfl
    | succ j =>
      rw [pyIndex]
      simp only [List.getElem_cons_succ]
      exact ih j (by simpa using h)

theorem arrGo_eq_arrSimple (f : Val → Option (List Val)) :
    ∀ (rem i : Nat) (l : List Val), i + rem ≤ l.length →
    arrGo f l rem i = arrSimple f ((l.drop i).take rem) := by
  intro rem
  induction rem with
  | zero => intro i l h; simp [arrGo, arrSimple]
  | succ r ih =>
    intro i l h
    have hi : i < l.length := by omega
    rw [arrGo, pyIndex_lt l i hi, optBind_some]
    have hdrop : l.drop i = l[i] :: l.drop (i + 1) :=
      List.drop_eq_getElem_cons hi
    rw [hdrop]
    rw [List.take_succ_cons, arrSimple]
    rw [ih (i + 1) l (by omega)]

theorem pyIndex_ge (l : List Val) : ∀ i, l.length ≤ i → pyIndex l i = none := by
  induction l with
  | nil => intro i _; cases i <;> rfl
  | cons x xs ih =>
    intro i h
    cases i with
    | zero => simp at h
    | succ j =>
      rw [pyIndex]
      exact ih j (by simpa using h)

theorem arrGo_none (f : Val → Option (List Val)) :
    ∀ (rem i : Nat) (l : List Val), 0 < rem → l.length < i + rem →
    arrGo f l rem i = none := by
  intro rem
  induction rem with
  | zero => intro i l h0 h; omega
  | succ r ih =>
    intro i l _ h
    rcases Nat.lt_or_ge i l.length with hi | hi
    · rcases Nat.eq_zero_or_pos r with hr | hr
      · omega
      · rw [arrGo, pyIndex_lt l i hi, optBind_some]
        cases hf : f l[i] with
        | none => rfl
        | some s =>
          rw [optBind_some, ih (i + 1) l hr (by omega)]
          rfl
    · rw [arrGo, pyIndex_ge l i hi]
      rfl

theorem arrSimple_length (f : Val → Option (List Val)) (m : Nat)
    (hf : ∀ x s, f x = some s → s.length = m) :
    ∀ (l : List Val) (out : List Val), arrSimple f l = some out →
    out.length = l.length * m := by
  intro l
  induction l with
  | nil =>
    intro out h
    simp [arrSimple] at h
    subst h
    simp
  | cons x xs ih =>
    intro out h
    rw [arrSimple] at h
    cases hx : f x with
    | none => rw [hx] at h; simp [optBind_none] at h
    | some s =>
      rw [hx, optBind_some] at h
      cases hxs : arrSimple f xs with
      | none => rw [hxs] at h; simp [optBind_none] at h
      | some o2 =>
        rw [hxs, optBind_some] at h
        simp only [Option.pure_def, Option.some.injEq] at h
        subst h
        have h1 := hf x s hx
        have h2 := ih o2 hxs
        simp only [List.length_append, List.length_cons, h1, h2]
        ring

/-- create_packlist always emits exactly the number of values its format
carries. -/
theorem cpl_length : ∀ d, ∀ (v : Val) (sl : List Val),
    create_packlist d v = some sl → sl.length = countSlots (format d) := by
  refine descInd (Q := fun fs => ∀ (a : List (String × Val)) (sl : List Val),
      cplFields fs a = some sl → sl.length = countSlots (formatFields fs))
    ?_ ?_ ?_ ?_ ?_ ?_ ?_ ?_ ?_ ?_
  · intro w s v sl h
    simp [create_packlist] at h
    simp [← h, format, countSlots, tokSlots]
  · intro v sl h
    simp [create_packlist] at h
    simp [← h, format, countSlots, tokSlots]
  · intro v sl h
    simp [create_packlist] at h
    simp [← h, format, countSlots, tokSlots]
  · intro n v sl h
    simp [create_packlist] at h
    simp [← h, format, countSlots, tokSlots]
  · intro n t v sl h
    rcases v with i | b2 | bl | st | _ | l | dd <;> simp [create_packlist] at h
    cases he : utf8Encode st with
    | none => rw [he] at h; simp at h
    | some enc =>
      rw [he] at h
      simp at h
      simp [← h, format, countSlots, tokSlots]
  · intro n v sl h
    simp [create_packlist] at h
    simp [← h, format, countSlots, tokSlots]
  · intro d n ih v sl h
    rcases v with i | b2 | bl | st | _ | l | dd <;>
      simp [create_packlist] at h
    rw [format, countSlots_fmtRep]
    rcases Nat.lt_or_ge l.length n with hlt | hge
    · rw [arrGo_none (create_packlist d) n 0 l (by omega) (by omega)] at h
      simp at h
    · rw [arrGo_eq_arrSimple (create_packlist d) n 0 l (by omega)] at h
      have := arrSimple_length (create_packlist d) (countSlots (format d))
        (fun x s hx => ih x s hx) _ sl h
      rw [this]
      simp [List.length_take, List.length_drop]
      omega
  · intro fs ih v sl h
    rcases v with i | b2 | bl | st | _ | l | dd <;>
      simp [create_packlist] at h
    rw [format]
    exact ih dd sl h
  · intro a sl h
    simp [cplFields] at h
    simp [← h, formatFields, countSlots]
  · intro k d r ihd ihr a sl h
    rw [cplFields] at h
    cases h1 : create_packlist d (pyGet a k) with
    | none => rw [h1] at h; simp [optBind_none] at h
    | some s1 =>
      rw [h1, optBind_some] at h
      cases h2 : cplFields r a with
      | none => rw [h2] at h; simp [optBind_none] at h
      | some s2 =>
        rw [h2, optBind_some] at h
        simp only [Option.pure_def, Option.some.injEq] at h
        subst h
        rw [formatFields, countSlots_append]
        simp [ihd _ _ h1, ihr _ _ h2]

/-- Round-trip property of one descriptor and one valid value: its
packlist exists, has the right slot count, packs successfully, and
parsing its normalized slots returns the value and slot_width, leaving
any further slots untouched. -/
def RT (d : Desc) (v : Val) : Prop :=
  ∃ sl, create_packlist d v = some sl ∧
    sl.length = countSlots (format d) ∧
    packOK (format d) sl = true ∧
    ∀ rest, pspec d (normToks (format d) sl ++ rest) = some (v, slotW d)

/-- Round-trip property of a record's field list. -/
def RTF (fs : List (String × Desc)) (a : List (String × Val)) : Prop :=
  ∃ sl, cplFields fs a = some sl ∧
    sl.length = countSlots (formatFields fs) ∧
    packOK (formatFields fs) sl = true ∧
    ∀ rest, pspecFields fs (normToks (formatFields fs) sl ++ rest) =
      some (a, slotWFields fs)

theorem packIntVal_isSome_of_valid (w : Nat) (sgn : Bool) (i : Int)
    (hv : validV (.dint w sgn) (.vint i) = true) :
    (packIntVal w sgn (.vint i)).isSome = true := by
  rw [validV] at hv
  simp only [packIntVal, packIntCore]
  rcases sgn with _ | _
  · simp only [Bool.false_eq_true, if_false] at hv ⊢
    rw [if_pos (of_decide_eq_true hv)]
    rfl
  · simp only [if_true] at hv ⊢
    rw [if_pos (of_decide_eq_true hv)]
    rfl

theorem cplFields_congr : ∀ (r : List (String × Desc))
    (a1 a2 : List (String × Val)),
    (∀ k2 d2, (k2, d2) ∈ r → pyGet a1 k2 = pyGet a2 k2) →
    cplFields r a1 = cplFields r a2 := by
  intro r
  induction r with
  | nil => intro a1 a2 _; rfl
  | cons p r' ih =>
    intro a1 a2 hg
    obtain ⟨k2, d2⟩ := p
    rw [cplFields, cplFields, hg k2 d2 (by simp),
      ih a1 a2 (fun k3 d3 hm => hg k3 d3 (by simp [hm]))]

theorem pyGet_cons_ne (k k2 : String) (v : Val) (ar : List (String × Val))
    (h : k ≠ k2) : pyGet ((k, v) :: ar) k2 = pyGet ar k2 := by
  rw [pyGet, if_neg h]

/-- Core round-trip lemma for arrays, given the property for the child. -/
theorem arrCore (d : Desc)
    (hP : ∀ v, validV d v = true → RT d v) :
    ∀ l : List Val, validList d l = true →
    ∃ sl, arrSimple (create_packlist d) l = some sl ∧
      sl.length = l.length * countSlots (format d) ∧
      packOK (fmtRep l.length (format d)) sl = true ∧
      ∀ rest, aSpec (pspec d) l.length
        (normToks (fmtRep l.length (format d)) sl ++ rest) =
        some (l, l.length * slotW d) := by
  intro l
  induction l with
  | nil =>
    intro _
    refine ⟨[], rfl, by simp, by simp [fmtRep, packOK], ?_⟩
    intro rest
    simp [fmtRep, normToks, aSpec]
  | cons x xs ih =>
    intro hv
    rw [validList] at hv
    simp only [Bool.and_eq_true] at hv
    obtain ⟨slx, hcx, hlenx, hokx, hpx⟩ := hP x hv.1
    obtain ⟨slxs, hcxs, hlenxs, hokxs, hpxs⟩ := ih hv.2
    refine ⟨slx ++ slxs, ?_, ?_, ?_, ?_⟩
    · rw [arrSimple, hcx, optBind_some, hcxs, optBind_some]
      rfl
    · simp only [List.length_append, List.length_cons, hlenx, hlenxs]
      ring
    · simp only [List.length_cons, fmtRep]
      exact packOK_append (format d) slx (fmtRep xs.length (format d)) slxs
        hlenx hokx hokxs
    · intro rest
      simp only [List.length_cons, fmtRep]
      rw [normToks_append (format d) slx (fmtRep xs.length (format d)) slxs
        hlenx]
      rw [List.append_assoc]
      rw [aSpec, hpx (normToks (fmtRep xs.length (format d)) slxs ++ rest),
        optBind_some]
      dsimp only
      have hnl : (normToks (format d) slx).length = slotW d := by
        rw [normToks_length (format d) slx hlenx, countSlots_format]
      have hdrop : (normToks (format d) slx ++
          (normToks (fmtRep xs.length (format d)) slxs ++ rest)).drop
            (slotW d) =
          normToks (fmtRep xs.length (format d)) slxs ++ rest := by
        rw [← hnl]
        exact drop_concat_left _ _
      rw [hdrop, hpxs rest, optBind_some]
      dsimp only
      rw [Nat.succ_mul]
      simp only [Option.pure_def, Option.some.injEq, Prod.mk.injEq, true_and]
      omega

/-- The core induction: every well-formed descriptor round-trips every
valid value at the packlist level. -/
theorem rt_core : ∀ d, wfD d = true → ∀ v, validV d v = true → RT d v := by
  refine descInd
    (P := fun d => wfD d = true → ∀ v, validV d v = true → RT d v)
    (Q := fun fs => (fs.map Prod.fst).Nodup → wfFields fs = true →
      ∀ a, validFields fs a = true → RTF fs a)
    ?_ ?_ ?_ ?_ ?_ ?_ ?_ ?_ ?_ ?_
  · intro w sgn hwf v hv
    rcases v with i | b | bl | st | _ | l | dd
    case vint =>
      refine ⟨[.vint i], rfl, by simp [format, countSlots, tokSlots], ?_, ?_⟩
      · rw [format]
        rw [packOK]
        simp only [Bool.and_eq_true]
        exact ⟨packIntVal_isSome_of_valid w sgn i hv, rfl⟩
      · intro rest
        rw [format]
        simp only [normToks, normTok, List.cons_append, List.nil_append]
        rw [pspec, slotW]
    all_goals simp [validV] at hv
  · intro hwf v hv
    rcases v with i | b | bl | st | _ | l | dd
    case vbool =>
      refine ⟨[.vbool b], rfl, by simp [format, countSlots, tokSlots],
        by rw [format, packOK]; rfl, ?_⟩
      intro rest
      rw [format]
      simp only [normToks, normTok, pyTruthy, List.cons_append, List.nil_append]
      rw [pspec, slotW]
    all_goals simp [validV] at hv
  · intro hwf v hv
    rcases v with i | b | bl | st | _ | l | dd
    case vbytes =>
      rcases bl with _ | ⟨b, _ | ⟨c2, bl3⟩⟩
      case nil => simp [validV] at hv
      case cons.nil =>
        refine ⟨[.vbytes [b]], rfl, by simp [format, countSlots, tokSlots],
          by rw [format]; simp [packOK], ?_⟩
        intro rest
        rw [format]
        simp only [normToks, normTok, List.cons_append, List.nil_append]
        rw [pspec, slotW]
      case cons.cons => simp [validV] at hv
    all_goals simp [validV] at hv
  · intro n hwf v hv
    rcases v with i | b | bl | st | _ | l | dd
    case vbytes =>
      simp only [validV, Bool.and_eq_true, decide_eq_true_eq] at hv
      refine ⟨[.vbytes bl], rfl, by simp [format, countSlots, tokSlots],
        by rw [format]; simp [packOK], ?_⟩
      intro rest
      rw [format]
      simp only [normToks, normTok, List.cons_append, List.nil_append]
      rw [pspec, slotW]
      have htake : bl.take n = bl := by
        rw [← hv.1]
        exact List.take_length bl
      rw [hv.1, htake]
      simp
    all_goals simp [validV] at hv
  · intro n nt hwf v hv
    rcases v with i | b | bl | st | _ | l | dd
    case vstr =>
      simp only [validV] at hv
      cases he : utf8Encode st with
      | none => rw [he] at hv; exact absurd hv (by simp)
      | some enc =>
        rw [he] at hv
        refine ⟨[.vbytes enc], by rw [create_packlist, he]; rfl,
          by simp [format, countSlots, tokSlots],
          by rw [format]; simp [packOK], ?_⟩
        intro rest
        rw [format]
        simp only [normToks, normTok, List.cons_append, List.nil_append]
        rw [pspec, slotW]
        rcases nt with _ | _
        · simp only [Bool.false_eq_true, if_false, decide_eq_true_eq] at hv
          have htake : enc.take n = enc := by
            rw [← hv]
            exact List.take_length enc
          rw [htake, hv]
          simp only [Nat.sub_self, List.replicate_zero, List.append_nil]
          have hdec : utf8Decode enc = some st := by
            have h2 := utf8Encode_decode st enc he []
            rw [List.append_nil] at h2
            rw [h2]
            simp [utf8Decode]
          rw [hdec]
          simp
        · simp only [if_true, Bool.and_eq_true, decide_eq_true_eq] at hv
          obtain ⟨hlt, hnf⟩ := hv
          have htake : enc.take n = enc := List.take_of_length_le (by omega)
          rw [htake]
          rw [utf8Encode_decode st enc he (List.replicate (n - enc.length) 0)]
          rw [utf8Decode_zeros]
          simp only [Option.map_some']
          have hk : n - enc.length = (n - enc.length - 1) + 1 := by omega
          rw [hk, List.replicate_succ]
          have hnull : ∀ x ∈ st, x ≠ 0 := by
            simp only [List.all_eq_true, decide_eq_true_eq] at hnf
            intro x hx
            exact hnf x hx
          rw [pyFind_concat 0 st _ hnull]
          have hpt : pyTakeTo (st ++ 0 :: List.replicate (n - enc.length - 1) 0)
              (st.length : Int) = st := pyTakeTo_length_concat st _
          rw [hpt]
          simp
    all_goals simp [validV] at hv
  · intro n hwf v hv
    rcases v with i | b | bl | st | _ | l | dd
    case vnone =>
      refine ⟨[], rfl, by simp [format, countSlots, tokSlots],
        by rw [format, packOK, packOK], ?_⟩
      intro rest
      rw [format]
      simp only [normToks, List.nil_append]
      rw [pspec, slotW]
    all_goals simp [validV] at hv
  · intro d n ih hwf v hv
    rw [wfD] at hwf
    rcases v with i | b | bl | st | _ | l | dd
    all_goals try simp [validV] at hv
    case vlist =>
    obtain ⟨hlen, hvl⟩ := hv
    obtain ⟨sl, hc, hslen, hok, hp⟩ := arrCore d (fun v hv => ih hwf v hv) l hvl
    refine ⟨sl, ?_, ?_, ?_, ?_⟩
    · rw [create_packlist]
      rw [arrGo_eq_arrSimple (create_packlist d) n 0 l (by omega)]
      rw [List.drop_zero]
      rw [← hlen, List.take_length]
      exact hc
    · rw [format, countSlots_fmtRep, ← hlen]
      exact hslen
    · rw [format, ← hlen]
      exact hok
    · intro rest
      rw [format, pspec, slotW, ← hlen]
      rw [hp rest]
      rfl
  · intro fs ih hwf v hv
    rw [wfD] at hwf
    simp only [Bool.and_eq_true, decide_eq_true_eq] at hwf
    rcases v with i | b | bl | st | _ | l | dd
    all_goals try simp [validV] at hv
    case vdict =>
    obtain ⟨sl, hc, hslen, hok, hp⟩ := ih hwf.1 hwf.2 dd hv
    refine ⟨sl, ?_, ?_, ?_, ?_⟩
    · rw [create_packlist]
      exact hc
    · rw [format]
      exact hslen
    · rw [format]
      exact hok
    · intro rest
      rw [format, pspec, slotW, hp rest]
      rfl
  · intro _ _ a hv
    cases a with
    | nil =>
      refine ⟨[], rfl, by simp [formatFields, countSlots], rfl, ?_⟩
      intro rest
      simp [formatFields, normToks, pspecFields, slotWFields]
    | cons p ar => simp [validFields] at hv
  · intro k d r ihd ihr hnd hwf a hv
    cases a with
    | nil => simp [validFields] at hv
    | cons p ar =>
      obtain ⟨k', v⟩ := p
      rw [validFields] at hv
      simp only [Bool.and_eq_true, decide_eq_true_eq] at hv
      obtain ⟨⟨hk, hvv⟩, hvr⟩ := hv
      rw [hk] at *
      clear hk k'
      rw [wfFields] at hwf
      simp only [Bool.and_eq_true] at hwf
      simp only [List.map_cons, List.nodup_cons] at hnd
      obtain ⟨hknotin, hnd2⟩ := hnd
      obtain ⟨sld, hcd, hlend, hokd, hpd⟩ := ihd hwf.1 v hvv
      obtain ⟨slr, hcr, hlenr, hokr, hpr⟩ := ihr hnd2 hwf.2 ar hvr
      have hget : pyGet ((k, v) :: ar) k = v := by
        rw [pyGet, if_pos rfl]
      have hrest : cplFields r ((k, v) :: ar) = cplFields r ar := by
        apply cplFields_congr
        intro k2 d2 hm
        apply pyGet_cons_ne
        intro hkk
        subst hkk
        exact hknotin (by
          have : k ∈ r.map Prod.fst := by
            simp only [List.mem_map]
            exact ⟨(k, d2), hm, rfl⟩
          exact this)
      refine ⟨sld ++ slr, ?_, ?_, ?_, ?_⟩
      · rw [cplFields, hget, hcd, optBind_some, hrest, hcr, optBind_some]
        rfl
      · rw [formatFields, countSlots_append]
        simp [hlend, hlenr]
      · rw [formatFields]
        exact packOK_append (format d) sld (formatFields r) slr hlend hokd hokr
      · intro rest
        rw [formatFields]
        rw [normToks_append (format d) sld (formatFields r) slr hlend]
        rw [List.append_assoc]
        rw [pspecFields, hpd (normToks (formatFields r) slr ++ rest),
          optBind_some]
        dsimp only
        have hnl : (normToks (format d) sld).length = slotW d := by
          rw [normToks_length (format d) sld hlend, countSlots_format]
        have hdrop : (normToks (format d) sld ++
            (normToks (formatFields r) slr ++ rest)).drop (slotW d) =
            normToks (formatFields r) slr ++ rest := by
          rw [← hnl]
          exact drop_concat_left _ _
        rw [hdrop, hpr rest, optBind_some]
        rw [slotWFields]
        rfl

/-- Full round trip through the byte level: packing a valid value and
unpacking the resulting bytes returns exactly the value. -/
theorem roundtrip (d : Desc) (v : Val) (hwf : wfD d = true)
    (hv : validV d v = true) :
    (do let bs ← pack d v; unpack d bs 0) = some v := by
  obtain ⟨sl, hc, hlen, hok, hparse⟩ := rt_core d hwf v hv
  obtain ⟨out, hout⟩ := packOK_some (format d) sl hok 0
  have hpack : pack d v = some out := by
    rw [pack, hc, optBind_some, hout]
  rw [hpack, optBind_some, unpack]
  have hL := packToks_length (format d) sl 0 out hout
  have hread := packToks_read (format d) sl 0 out (toksWF_format d hwf) hout
    [] [] rfl
  simp only [List.nil_append, List.append_nil] at hread
  have hsize : structUnpackFrom (format d) out 0 = some (normToks (format d) sl) := by
    rw [structUnpackFrom, if_pos (by simp [sizeToks]; omega)]
    rw [List.drop_zero, hread]
  rw [hsize, optBind_some]
  have hp := hparse []
  rw [List.append_nil] at hp
  rw [parse_unpacked_eq_pspec, hp]
  rfl

theorem readToks_length : ∀ (ts : List Tok) (b : List Nat) (pos : Nat),
    (readToks ts b pos).length = countSlots ts := by
  intro ts
  induction ts with
  | nil => intro b pos; simp [readToks, countSlots]
  | cons t ts' ih =>
    intro b pos
    cases t <;>
      simp [readToks, countSlots, tokSlots, ih] <;>
      simp [countSlots] at ih ⊢ <;>
      omega

theorem cplFields_append : ∀ (l1 l2 : List (String × Desc))
    (a : List (String × Val)),
    cplFields (l1 ++ l2) a =
      (cplFields l1 a).bind fun s1 =>
        (cplFields l2 a).map fun s2 => s1 ++ s2 := by
  intro l1
  induction l1 with
  | nil =>
    intro l2 a
    simp only [List.nil_append, cplFields, Option.some_bind]
    cases cplFields l2 a <;> simp
  | cons p l1' ih =>
    intro l2 a
    obtain ⟨k, d⟩ := p
    rw [List.cons_append, cplFields, cplFields]
    cases hd : create_packlist d (pyGet a k) with
    | none => rfl
    | some sd =>
      simp only [optBind_some]
      rw [ih l2 a]
      cases h1 : cplFields l1' a with
      | none => rfl
      | some s1 =>
        simp only [Option.some_bind]
        cases h2 : cplFields l2 a with
        | none => rfl
        | some s2 => simp [List.append_assoc]

theorem cplFields_length : ∀ (fs : List (String × Desc))
    (a : List (String × Val)) (sl : List Val), cplFields fs a = some sl →
    sl.length = countSlots (formatFields fs) := by
  intro fs
  induction fs with
  | nil =>
    intro a sl h
    simp [cplFields] at h
    simp [← h, formatFields, countSlots]
  | cons p fr ih =>
    intro a sl h
    obtain ⟨k, d⟩ := p
    rw [cplFields] at h
    cases hd : create_packlist d (pyGet a k) with
    | none => rw [hd] at h; simp [optBind_none] at h
    | some sd =>
      rw [hd, optBind_some] at h
      cases hr : cplFields fr a with
      | none => rw [hr] at h; simp [optBind_none] at h
      | some sr =>
        rw [hr, optBind_some] at h
        simp only [Option.pure_def, Option.some.injEq] at h
        subst h
        rw [formatFields, countSlots_append]
        simp [cpl_length d _ _ hd, ih a sr hr]

theorem packToks_some_packOK : ∀ (ts : List Tok) (slots : List Val)
    (pos : Nat) (out : List Nat), packToks ts slots pos = some out →
    packOK ts slots = true := by
  intro ts
  induction ts with
  | nil =>
    intro slots pos out h
    cases slots with
    | nil => rfl
    | cons s ss => simp [packToks] at h
  | cons t ts' ih =>
    intro slots pos out h
    cases t with
    | tpad n =>
      rw [packToks] at h
      rw [packOK]
      cases hq : packToks ts' slots (pos + n) with
      | none => rw [hq] at h; simp at h
      | some o2 => exact ih slots (pos + n) o2 hq
    | tint w sgn =>
      cases slots with
      | nil => simp [packToks] at h
      | cons s ss =>
        simp only [packToks] at h
        cases hb : packIntVal w sgn s with
        | none => rw [hb] at h; simp at h
        | some ib =>
          rw [hb, optBind_some] at h
          cases hq : packToks ts' ss (alignUp pos w + w) with
          | none => rw [hq] at h; simp at h
          | some o2 =>
            rw [packOK]
            simp only [Bool.and_eq_true]
            exact ⟨by rw [hb]; rfl, ih ss _ o2 hq⟩
    | tbool =>
      cases slots with
      | nil => simp [packToks] at h
      | cons s ss =>
        simp only [packToks] at h
        rw [packOK]
        cases hq : packToks ts' ss (pos + 1) with
        | none => rw [hq] at h; simp at h
        | some o2 => exact ih ss (pos + 1) o2 hq
    | tchar =>
      cases slots with
      | nil => simp [packToks] at h
      | cons s ss =>
        rcases s with i | b2 | bl | st | _ | l | dd
        case vbytes =>
          rcases bl with _ | ⟨b, _ | ⟨c2, bl3⟩⟩
          · simp [packToks] at h
          · simp only [packToks] at h
            cases hq : packToks ts' ss (pos + 1) with
            | none => rw [hq] at h; simp at h
            | some o2 =>
              rw [packOK]
              simp only [Bool.true_and]
              exact ih ss (pos + 1) o2 hq
          · simp [packToks] at h
        all_goals simp [packToks] at h
    | tstr n =>
      cases slots with
      | nil => simp [packToks] at h
      | cons s ss =>
        rcases s with i | b2 | bl | st | _ | l | dd
        case vbytes =>
          simp only [packToks] at h
          cases hq : packToks ts' ss (pos + n) with
          | none => rw [hq] at h; simp at h
          | some o2 =>
            rw [packOK]
            simp only [Bool.true_and]
            exact ih ss (pos + n) o2 hq
        all_goals simp [packToks] at h

theorem packOK_split : ∀ (t1 : List Tok) (s1 : List Val) (t2 : List Tok)
    (s2 : List Val), s1.length = countSlots t1 →
    packOK (t1 ++ t2) (s1 ++ s2) = true → packOK t2 s2 = true := by
  intro t1
  induction t1 with
  | nil =>
    intro s1 t2 s2 h hok
    simp only [countSlots, List.map_nil, List.sum_nil] at h
    rw [List.length_eq_zero] at h
    subst h
    simpa using hok
  | cons t t1' ih =>
    intro s1 t2 s2 h hok
    cases t with
    | tpad n =>
      rw [List.cons_append, packOK] at hok
      exact ih s1 t2 s2 (by simp [countSlots, tokSlots] at h ⊢; omega) hok
    | tint w sgn =>
      cases s1 with
      | nil => simp [countSlots, tokSlots] at h; omega
      | cons v s1' =>
        rw [List.cons_append, List.cons_append, packOK] at hok
        simp only [Bool.and_eq_true] at hok
        exact ih s1' t2 s2 (by simp [countSlots, tokSlots] at h ⊢; omega) hok.2
    | tbool =>
      cases s1 with
      | nil => simp [countSlots, tokSlots] at h; omega
      | cons v s1' =>
        rw [List.cons_append, List.cons_append, packOK] at hok
        exact ih s1' t2 s2 (by simp [countSlots, tokSlots] at h ⊢; omega) hok
    | tchar =>
      cases s1 with
      | nil => simp [countSlots, tokSlots] at h; omega
      | cons v s1' =>
        rw [List.cons_append, List.cons_append] at hok
        rcases v with i | b2 | bl | st | _ | l | dd
        case vbytes =>
          rcases bl with _ | ⟨b, _ | ⟨c2, bl3⟩⟩
          · simp [packOK] at hok
          · simp only [packOK, Bool.true_and] at hok
            exact ih s1' t2 s2 (by simp [countSlots, tokSlots] at h ⊢; omega)
              hok
          · simp [packOK] at hok
        all_goals simp [packOK] at hok
    | tstr n =>
      cases s1 with
      | nil => simp [countSlots, tokSlots] at h; omega
      | cons v s1' =>
        rw [List.cons_append, List.cons_append] at hok
        rcases v with i | b2 | bl | st | _ | l | dd
        case vbytes =>
          simp only [packOK, Bool.true_and] at hok
          exact ih s1' t2 s2 (by simp [countSlots, tokSlots] at h ⊢; omega) hok
        all_goals simp [packOK] at hok

/-- Whether a descriptor is a padding (SPARE) field. -/
def isSpare : Desc → Bool
  | .dspare _ => true
  | _ => false

/-- A field whose key, when missing from the encode input, makes the
whole encode fail: everything except padding, the bool format (packed
from None's falsiness), zero-field records and zero-length arrays (whose
encoders never touch their input). -/
def requiresValue : Desc → Bool
  | .dspare _ => false
  | .dbool => false
  | .dstruct [] => false
  | .darray _ 0 => false
  | _ => true

theorem formatFields_append : ∀ (l1 l2 : List (String × Desc)),
    formatFields (l1 ++ l2) = formatFields l1 ++ formatFields l2 := by
  intro l1
  induction l1 with
  | nil => intro l2; simp [formatFields]
  | cons p l1' ih =>
    intro l2
    obtain ⟨k, d⟩ := p
    rw [List.cons_append, formatFields, formatFields, ih, List.append_assoc]

/-- The schema of the spec's nested + padding + array scenario:
{one: uint8, two: uint8, nested: {three: uint8, four: uint8,
pad1: padding(1), five: uint8}, six: uint8, array: array(uint8, 3)}. -/
def scenarioSchema : Desc :=
  .dstruct [("one", .dint 1 false), ("two", .dint 1 false),
    ("nested", .dstruct [("three", .dint 1 false), ("four", .dint 1 false),
      ("pad1", .dspare 1), ("five", .dint 1 false)]),
    ("six", .dint 1 false), ("array", .darray (.dint 1 false) 3)]

/-- The scenario's decoded value, padding bound to the absence marker. -/
def scenarioValue : Val :=
  .vdict [("one", .vint 1), ("two", .vint 2),
    ("nested", .vdict [("three", .vint 3), ("four", .vint 4),
      ("pad1", .vnone), ("five", .vint 5)]),
    ("six", .vint 6), ("array", .vlist [.vint 7, .vint 8, .vint 9])]

/-- The scenario's value with the pad1 key not supplied. -/
def scenarioValueNoPad : Val :=
  .vdict [("one", .vint 1), ("two", .vint 2),
    ("nested", .vdict [("three", .vint 3), ("four", .vint 4),
      ("five", .vint 5)]),
    ("six", .vint 6), ("array", .vlist [.vint 7, .vint 8, .vint 9])]

/-- The scenario's ten input bytes 01 02 03 04 00 05 06 07 08 09. -/
def scenarioBytes : List Nat := [1, 2, 3, 4, 0, 5, 6, 7, 8, 9]

/-- C1 (counterexample): the round trip fails as literally stated.  The
record {s: STRING(2, null_terminated)} with the valid decoded value
{s: "ab"} (all required fields present, the text exactly filling the
field) encodes to the bytes "ab", but decoding them yields {s: "a"}:
str.find returns -1 when no null is present and the slice str[:-1] drops
the last character. -/
theorem C1_roundtrip_counterexample :
    (do
      let bs ← pack (.dstruct [("s", .dstr 2 true)])
        (.vdict [("s", .vstr [97, 98])])
      unpack (.dstruct [("s", .dstr 2 true)]) bs 0) ≠
      some (.vdict [("s", .vstr [97, 98])]) := by
  rw [show (do
      let bs ← pack (.dstruct [("s", .dstr 2 true)])
        (.vdict [("s", .vstr [97, 98])])
      unpack (.dstruct [("s", .dstr 2 true)]) bs 0) =
      some (.vdict [("s", .vstr [97])]) from rfl]
  simp

/-- C1 (amended): for every well-formed record schema and every valid
decoded value - fields listed in schema order, all required fields
present, padding fields bound to None, scalars in range, byte blocks of
exactly the declared length, and every null-terminated text value
null-free with its encoding strictly shorter than the field width -
decoding the bytes produced by encoding the value yields the value
again: R.unpack(R.pack(v)) == v. -/
theorem C1_roundtrip (fs : List (String × Desc)) (v : Val)
    (hwf : wfD (.dstruct fs) = true) (hv : validV (.dstruct fs) v = true) :
    (do
      let bs ← pack (.dstruct fs) v
      unpack (.dstruct fs) bs 0) = some v :=
  roundtrip (.dstruct fs) v hwf hv

/-- C1 (witness): the amended round trip at the nested + padding + array
scenario. -/
theorem C1_roundtrip_witness :
    (do
      let bs ← pack scenarioSchema scenarioValue
      unpack scenarioSchema bs 0) = some scenarioValue := by
  have h := C1_roundtrip
    [("one", .dint 1 false), ("two", .dint 1 false),
      ("nested", .dstruct [("three", .dint 1 false), ("four", .dint 1 false),
        ("pad1", .dspare 1), ("five", .dint 1 false)]),
      ("six", .dint 1 false), ("array", .darray (.dint 1 false) 3)]
    scenarioValue (by decide) (by decide)
  exact h

/-- C2: a record-level decode consumes exactly slot_width() slots.
parse_unpacked on a record equals the cursor-style reference decoder in
which field i reads the slot list dropped by the total consumed count of
fields 0..i-1 (so the cursor passed to each field is the sum of the
consumed counts of all earlier fields) and the returned count is the sum
of the fields' consumed counts; moreover any returned count equals
slot_width of the record. -/
theorem C2_slot_consumption : ∀ (fs : List (String × Desc)) (data : List Val),
    parse_unpacked (.dstruct fs) data =
      (pspecFields fs data).map (fun p => (Val.vdict p.1, (p.2 : Int))) ∧
    ∀ v n, parse_unpacked (.dstruct fs) data = some (v, n) →
      n = (slotW (.dstruct fs) : Int) := by
  intro fs data
  have he : parse_unpacked (.dstruct fs) data =
      (pspecFields fs data).map (fun p => (Val.vdict p.1, (p.2 : Int))) := by
    rw [parse_unpacked_eq_pspec, pspec]
    cases pspecFields fs data <;> simp [intCount]
  refine ⟨he, ?_⟩
  intro v n hs
  rw [parse_unpacked_eq_pspec] at hs
  cases hq : pspec (.dstruct fs) data with
  | none => rw [hq] at hs; simp at hs
  | some q =>
    rw [hq] at hs
    simp [intCount] at hs
    have := pspec_consumed (.dstruct fs) data q.1 q.2 (by rw [hq])
    omega

/-- C2 (witness): the slot-consumption equality at a record with a
padding field and an array, on concrete data. -/
theorem C2_slot_consumption_witness :
    ((3 : Nat) : Int) =
      (slotW (.dstruct [("a", .dint 1 false), ("p", .dspare 2),
        ("arr", .darray (.dint 1 false) 2)]) : Int) :=
  (C2_slot_consumption
    [("a", .dint 1 false), ("p", .dspare 2),
      ("arr", .darray (.dint 1 false) 2)]
    [.vint 1, .vint 2, .vint 3]).2
    (.vdict [("a", .vint 1), ("p", .vnone),
      ("arr", .vlist [.vint 2, .vint 3])]) 3 (by rfl)

/-- C3: on the schema {one: uint8, two: uint8, nested: {three: uint8,
four: uint8, pad1: padding(1), five: uint8}, six: uint8,
array: array(uint8, 3)}, the bytes 01 02 03 04 00 05 06 07 08 09 decode
to the expected dict with pad1 = None, and encoding that value - with or
without the pad1 key - reproduces exactly the ten original bytes. -/
theorem C3_scenario :
    unpack scenarioSchema scenarioBytes 0 = some scenarioValue ∧
    pack scenarioSchema scenarioValue = some scenarioBytes ∧
    pack scenarioSchema scenarioValueNoPad = some scenarioBytes :=
  ⟨rfl, rfl, rfl⟩

/-- C4 (counterexample): encoding an input that lacks the key of a
required BOOL field does not signal an error - dict.get returns None,
struct's bool format packs any object by its truthiness, and None is
falsy, so the missing field is silently encoded as the byte 0. -/
theorem C4_missing_bool_counterexample :
    pack (.dstruct [("flag", .dbool)]) (.vdict []) = some [0] ∧
    pack (.dstruct [("flag", .dbool)]) (.vdict []) ≠ none := by
  refine ⟨rfl, ?_⟩
  rw [show pack (.dstruct [("flag", .dbool)]) (.vdict []) = some [0] from rfl]
  simp

/-- C4 (amended): encoding an input whose lookup of a required field key
yields None (in particular, a missing key) fails, for every field type
except BOOL (silently encoded as False), padding (legitimately ignored),
zero-field records and zero-length arrays (whose encoders never read the
value).  The missing value is never substituted by a default. -/
theorem C4_missing_field (fs : List (String × Desc)) (a : List (String × Val))
    (k : String) (d : Desc) (hmem : (k, d) ∈ fs)
    (hmiss : pyGet a k = .vnone) (hreq : requiresValue d = true) :
    pack (.dstruct fs) (.vdict a) = none := by
  cases hp : pack (.dstruct fs) (.vdict a) with
  | none => rfl
  | some out =>
    exfalso
    rw [pack] at hp
    cases hc : create_packlist (.dstruct fs) (.vdict a) with
    | none => rw [hc] at hp; simp [optBind_none] at hp
    | some sl =>
      rw [hc, optBind_some] at hp
      obtain ⟨l1, l2, rfl⟩ := List.append_of_mem hmem
      rw [create_packlist] at hc
      rw [cplFields_append] at hc
      cases h1 : cplFields l1 a with
      | none => rw [h1] at hc; simp at hc
      | some s1 =>
        rw [h1] at hc
        simp only [Option.some_bind] at hc
        cases h2 : cplFields ((k, d) :: l2) a with
        | none => rw [h2] at hc; simp at hc
        | some s23 =>
          rw [h2] at hc
          simp only [Option.map_some', Option.some.injEq] at hc
          rw [cplFields, hmiss] at h2
          cases hd : create_packlist d .vnone with
          | none => rw [hd] at h2; simp [optBind_none] at h2
          | some sd =>
            rw [hd, optBind_some] at h2
            cases h3 : cplFields l2 a with
            | none => rw [h3] at h2; simp [optBind_none] at h2
            | some s2 =>
              rw [h3, optBind_some] at h2
              simp only [Option.pure_def, Option.some.injEq] at h2
              have hok := packToks_some_packOK _ _ _ _ hp
              rw [format, formatFields_append, formatFields] at hok
              rw [← hc, ← h2] at hok
              have hlen1 := cplFields_length l1 a s1 h1
              have hok2 := packOK_split (formatFields l1) s1
                (format d ++ formatFields l2) (sd ++ s2) hlen1
                (by rw [← List.append_assoc] at hok ⊢; exact hok)
              rcases d with ⟨w, sgn⟩ | _ | _ | n | ⟨n, nt⟩ | n | ⟨dc, nn⟩ | dfs
              · simp only [create_packlist, Option.some.injEq] at hd
                rw [← hd] at hok2
                rw [format] at hok2
                simp [packOK, packIntVal] at hok2
              · simp [requiresValue] at hreq
              · simp only [create_packlist, Option.some.injEq] at hd
                rw [← hd] at hok2
                rw [format] at hok2
                simp [packOK] at hok2
              · simp only [create_packlist, Option.some.injEq] at hd
                rw [← hd] at hok2
                rw [format] at hok2
                simp [packOK] at hok2
              · simp [create_packlist] at hd
              · simp [requiresValue] at hreq
              · cases nn with
                | zero => simp [requiresValue] at hreq
                | succ m => simp [create_packlist] at hd
              · cases dfs with
                | nil => simp [requiresValue] at hreq
                | cons p r => simp [create_packlist] at hd

/-- C4 (witness): a missing required uint8 field key makes the encode
fail on a record that also has a padding field. -/
theorem C4_missing_field_witness :
    pack (.dstruct [("x", .dint 1 false), ("p", .dspare 1)]) (.vdict []) =
      none :=
  C4_missing_field [("x", .dint 1 false), ("p", .dspare 1)] []
    "x" (.dint 1 false) (by simp) rfl rfl

/-- C5 (code bug evaluation): for a null-terminated text field the code
truncates at the first null as specified (bytes 61 00 63 decode to "a"),
but when the decoded string contains no null it is NOT returned
unmodified: bytes 61 62 63 under STRING(3) decode to "ab" - str.find
returns -1 and the slice str[:-1] removes the last character. -/
theorem C5_null_termination_eval :
    unpack (.dstruct [("s", .dstr 3 true)]) [97, 0, 99] 0 =
      some (.vdict [("s", .vstr [97])]) ∧
    unpack (.dstruct [("s", .dstr 3 true)]) [97, 98, 99] 0 =
      some (.vdict [("s", .vstr [97, 98])]) :=
  ⟨rfl, rfl⟩

/-- C6 (counterexample): encoding a length-3 sequence into
array(uint8, 2) does not fail - the loop reads only the first two
elements and silently truncates to bytes 01 02. -/
theorem C6_array_length_counterexample :
    pack (.darray (.dint 1 false) 2) (.vlist [.vint 1, .vint 2, .vint 3]) =
      some [1, 2] ∧
    pack (.darray (.dint 1 false) 2) (.vlist [.vint 1, .vint 2, .vint 3]) ≠
      none := by
  refine ⟨rfl, ?_⟩
  rw [show
    pack (.darray (.dint 1 false) 2) (.vlist [.vint 1, .vint 2, .vint 3]) =
      some [1, 2] from rfl]
  simp

/-- C6 (amended): encoding a sequence shorter than the declared array
length fails (IndexError on the first out-of-range index), but a longer
sequence is NOT rejected: it encodes exactly as its first n elements
do - silent truncation. -/
theorem C6_array_length (d : Desc) (n : Nat) (l : List Val) :
    (l.length < n → pack (.darray d n) (.vlist l) = none) ∧
    (n ≤ l.length →
      pack (.darray d n) (.vlist l) = pack (.darray d n) (.vlist (l.take n))) := by
  constructor
  · intro hlt
    rw [pack, create_packlist,
      arrGo_none (create_packlist d) n 0 l (by omega) (by omega)]
    rfl
  · intro hge
    have h1 : create_packlist (.darray d n) (.vlist l) =
        create_packlist (.darray d n) (.vlist (l.take n)) := by
      rw [create_packlist, create_packlist]
      rw [arrGo_eq_arrSimple (create_packlist d) n 0 l (by omega)]
      rw [arrGo_eq_arrSimple (create_packlist d) n 0 (l.take n)
        (by simp [List.length_take]; omega)]
      rw [List.drop_zero, List.drop_zero, List.take_take]
      simp
    rw [pack, pack, h1]

/-- C6 (witness): the amended behavior at concrete inputs: a length-1
input fails for array(uint8, 2), and a length-3 input encodes exactly as
its 2-element prefix. -/
theorem C6_array_length_witness :
    pack (.darray (.dint 1 false) 2) (.vlist [.vint 1]) = none ∧
    pack (.darray (.dint 1 false) 2) (.vlist [.vint 1, .vint 2, .vint 3]) =
      pack (.darray (.dint 1 false) 2)
        (.vlist ([Val.vint 1, .vint 2, .vint 3].take 2)) :=
  ⟨(C6_array_length (.dint 1 false) 2 [.vint 1]).1 (by simp),
    (C6_array_length (.dint 1 false) 2 [.vint 1, .vint 2, .vint 3]).2
      (by simp)⟩

/-- C7: padding fields are ignored by the encoder.  Two encode inputs
that agree on every non-padding key of the record (in particular, one
with the padding keys absent and one with them bound to any values)
produce exactly the same bytes: SPARE.create_packlist returns the empty
list whatever value the lookup produced. -/
theorem C7_padding_ignored (fs : List (String × Desc))
    (a1 a2 : List (String × Val))
    (hagree : ∀ k d, (k, d) ∈ fs → isSpare d = false →
      pyGet a1 k = pyGet a2 k) :
    pack (.dstruct fs) (.vdict a1) = pack (.dstruct fs) (.vdict a2) := by
  have hcreate : ∀ (r : List (String × Desc)),
      (∀ k d, (k, d) ∈ r → isSpare d = false → pyGet a1 k = pyGet a2 k) →
      cplFields r a1 = cplFields r a2 := by
    intro r
    induction r with
    | nil => intro _; rfl
    | cons p r' ih =>
      intro hg
      obtain ⟨k, d⟩ := p
      rw [cplFields, cplFields]
      have htail := ih (fun k2 d2 hm hs => hg k2 d2 (by simp [hm]) hs)
      cases hsd : isSpare d with
      | true =>
        rcases d with _ | _ | _ | _ | _ | m | _ | _ <;> simp [isSpare] at hsd
        rw [create_packlist, create_packlist, htail]
      | false =>
        rw [hg k d (by simp) hsd, htail]
  rw [pack, pack, create_packlist, create_packlist, hcreate fs hagree]

/-- C7 (witness): supplying the padding key with an arbitrary value
produces the same bytes as omitting it. -/
theorem C7_padding_ignored_witness :
    pack (.dstruct [("a", .dint 1 false), ("p", .dspare 1)])
      (.vdict [("a", .vint 5)]) =
    pack (.dstruct [("a", .dint 1 false), ("p", .dspare 1)])
      (.vdict [("a", .vint 5), ("p", .vint 99)]) :=
  C7_padding_ignored [("a", .dint 1 false), ("p", .dspare 1)]
    [("a", .vint 5)] [("a", .vint 5), ("p", .vint 99)]
    (by
      intro k d hm hs
      simp only [List.mem_cons, List.not_mem_nil, or_false] at hm
      rcases hm with h | h
      · cases h
        rfl
      · cases h
        simp [isSpare] at hs)

/-- C8 (counterexample): encoding a 1-byte block into BYTES(2) is not
rejected - struct's s format zero-pads it to two bytes 61 00. -/
theorem C8_bytes_counterexample :
    pack (.dbytes 2) (.vbytes [97]) = some [97, 0] ∧
    pack (.dbytes 2) (.vbytes [97]) ≠ none := by
  refine ⟨rfl, ?_⟩
  rw [show pack (.dbytes 2) (.vbytes [97]) = some [97, 0] from rfl]
  simp

/-- C8 (amended): a byte field's decode passes the n-byte block through
unchanged; its encode accepts any byte block, implicitly zero-padding a
shorter one and truncating a longer one to exactly the declared length
(struct's s-format behavior). -/
theorem C8_byte_field (n : Nat) (bs buf : List Nat) (k : Nat) :
    (k + n ≤ buf.length →
      unpack (.dbytes n) buf k = some (.vbytes ((buf.drop k).take n))) ∧
    pack (.dbytes n) (.vbytes bs) =
      some (bs.take n ++ List.replicate (n - bs.length) 0) := by
  have hsz : sizeToks [Tok.tstr n] = n := by
    simp [sizeToks, endPos, tokAlign, tokWidth, alignUp]
  constructor
  · intro hle
    rw [unpack, format]
    rw [structUnpackFrom, if_pos (by rw [hsz]; exact hle)]
    rw [optBind_some, readToks, readToks]
    rw [List.drop_zero]
    rw [parse_unpacked]
    rfl
  · rw [pack, create_packlist, optBind_some]
    rw [format]
    simp only [packToks]
    simp

/-- C8 (witness): the amended byte-field behavior at a concrete offset
read and a concrete short encode. -/
theorem C8_byte_field_witness :
    unpack (.dbytes 2) [9, 8, 7] 1 = some (.vbytes [8, 7]) := by
  have h := (C8_byte_field 2 [] [9, 8, 7] 1).1 (by simp)
  simpa using h

/-- C9 (counterexample): a buffer long enough for the record's byte width
can still fail to decode: {s: STRING(1)} over the single byte FF raises
UnicodeDecodeError (FF is not valid UTF-8), even though
len(buffer) - offset equals the byte width. -/
theorem C9_invalid_text_counterexample :
    byte_width (.dstruct [("s", .dstr 1 true)]) = 1 ∧
    unpack (.dstruct [("s", .dstr 1 true)]) [255] 0 = none :=
  ⟨rfl, rfl⟩

/-- C9 (amended): R.unpack(b, k) fails whenever len(b) - k is smaller
than R's byte width; when len(b) - k is at least the byte width it
succeeds provided every text field's bytes decode in the configured
encoding - in particular it always succeeds for records without text
fields. -/
theorem C9_buffer_bounds (fs : List (String × Desc)) (buf : List Nat)
    (k : Nat) :
    (buf.length < k + byte_width (.dstruct fs) →
      unpack (.dstruct fs) buf k = none) ∧
    (k + byte_width (.dstruct fs) ≤ buf.length →
      hasText (.dstruct fs) = false →
      ∃ v, unpack (.dstruct fs) buf k = some v) := by
  constructor
  · intro hlt
    rw [byte_width] at hlt
    rw [unpack, structUnpackFrom, if_neg (by omega)]
    rfl
  · intro hle hnt
    rw [byte_width] at hle
    rw [unpack, structUnpackFrom, if_pos hle, optBind_some]
    have hslots : (readToks (format (.dstruct fs)) (buf.drop k) 0).length =
        countSlots (format (.dstruct fs)) := readToks_length _ _ _
    obtain ⟨v, hv⟩ := pspec_success (.dstruct fs) hnt
      (readToks (format (.dstruct fs)) (buf.drop k) 0)
      (by rw [hslots, countSlots_format])
    refine ⟨v, ?_⟩
    rw [parse_unpacked_eq_pspec, hv]
    rfl

/-- C9 (witness): the amended bounds behavior on a one-field record: the
empty buffer fails, a one-byte buffer succeeds. -/
theorem C9_buffer_bounds_witness :
    unpack (.dstruct [("a", .dint 1 false)]) [] 0 = none ∧
    ∃ v, unpack (.dstruct [("a", .dint 1 false)]) [7] 0 = some v :=
  ⟨(C9_buffer_bounds [("a", .dint 1 false)] [] 0).1 (by decide),
    (C9_buffer_bounds [("a", .dint 1 false)] [7] 0).2 (by decide) rfl⟩

/-- C10: decoding at an offset equals decoding the sliced buffer at
offset zero whenever the buffer holds at least the descriptor's byte
width past the offset: D.unpack(b, k) == D.unpack(b[k:], 0). -/
theorem C10_offset_slice (d : Desc) (buf : List Nat) (k : Nat)
    (h : k + byte_width d ≤ buf.length) :
    unpack d buf k = unpack d (buf.drop k) 0 := by
  rw [byte_width] at h
  rw [unpack, unpack, structUnpackFrom, structUnpackFrom]
  rw [if_pos h, if_pos (by simp [List.length_drop]; omega)]
  rw [List.drop_zero]

/-- C10 (witness): offset decoding of an array record equals decoding the
sliced buffer. -/
theorem C10_offset_slice_witness :
    unpack (.darray (.dint 1 false) 2) [1, 2, 3] 1 =
      unpack (.darray (.dint 1 false) 2) ([1, 2, 3].drop 1) 0 :=
  C10_offset_slice (.darray (.dint 1 false) 2) [1, 2, 3] 1 (by decide)

end BinaryDict
